import Mathlib

/-!
Verification of the bitsy modal text editor (Rust) against its
natural-language specification.

The development shallowly embeds the relevant Rust modules:

* `src/buffer.rs`   — the `Buffer` type over a ropey `Rope`.  The rope is
  modelled as the flat character sequence `List Char`; ropey's
  `len_lines`, `line_to_char`, `len_chars` are reproduced on that
  representation (`lenLines`, `lineToChar`, `lenChars`).  ropey counts one
  line more than the number of newline characters, so an empty rope has
  one line.  `line_to_char` is total here (it clamps past the final line,
  where ropey would panic); every embedded call site stays in the range
  ropey accepts.  Rope indices and columns count characters, as ropey's
  API does — with the one deliberate exception of `Buffer::line_len`,
  which in the source returns a UTF-8 *byte* count
  (`trim_end_matches('\n').len()`) that `editor.rs` then mixes into
  ropey's character-indexed arithmetic; the embedding reproduces that
  byte count (`utf8Len`, summing `Char.utf8Size`) and hence the unit
  mismatch, which is observable on lines containing multi-byte
  characters.
* `src/register.rs` — `RegisterContent` / `RegisterManager`.
* `src/command.rs`  — `Range`, `Command`, `parse_command` with its
  helpers `parse_range`, `parse_substitute`, `parse_set`.
* `src/selection.rs` and `src/mode.rs` — `Position`, `Selection`,
  `Selection::range`, `Mode`.
* `src/config.rs`   — `Config::set` (the `tabstop` option).
* `src/editor.rs`   — the `delete_line` arm of `handle_operator_motion`
  (operator doubling `dd`), the `Command::Delete` and
  `Command::Substitute` arms of `execute_command` with
  `execute_substitute_line`, `record_change`, and `save_jump_position`.

Rust `String`/`&str` values are modelled as `List Char`.
`usize::MAX` is modelled as the numeral `2 ^ 64 - 1`.
-/

/-- Rust strings and rope contents, as character lists. -/
abbrev Text := List Char

/-- `usize::MAX` on a 64-bit target. -/
def usizeMax : Nat := 2 ^ 64 - 1

namespace Buf

/-- Number of `'\n'` characters in the rope. -/
def countNl (t : Text) : Nat := t.count '\n'

/-- ropey `Rope::len_lines`: one more than the number of newlines. -/
def lenLines (t : Text) : Nat := countNl t + 1

/-- ropey `Rope::len_chars`. -/
def lenChars (t : Text) : Nat := t.length

/-- ropey `Rope::line_to_char`: character index of the start of a line.
ropey accepts `line ≤ len_lines` (returning `len_chars` at the upper
bound) and panics above it; this embedding clamps to `len_chars`
instead, which agrees with ropey on every index the embedded code
uses. -/
def lineToChar : Text → Nat → Nat
  | _, 0 => 0
  | [], _ + 1 => 0
  | c :: cs, n + 1 => 1 + (if c = '\n' then lineToChar cs n else lineToChar cs (n + 1))

/-- `rope.slice(a..b).to_string()` for `a ≤ b ≤ len_chars`. -/
def sliceChars (t : Text) (a b : Nat) : Text := (t.drop a).take (b - a)

/-- `rope.remove(a..b)`. -/
def removeChars (t : Text) (a b : Nat) : Text := t.take a ++ t.drop b

/-- `rope.insert_char(pos, c)`. -/
def insertAt (t : Text) (pos : Nat) (c : Char) : Text := t.take pos ++ c :: t.drop pos

/-- Rust `str::trim_end_matches('\n')`. -/
def trimEndNl (t : Text) : Text := (t.reverse.dropWhile (· = '\n')).reverse

/-- Rust `String::len` / `str::len`: the UTF-8 byte length of the text
(each character contributes `Char.utf8Size` bytes; equal to the
character count exactly when every character is single-byte). -/
def utf8Len (t : Text) : Nat := (t.map Char.utf8Size).sum

end Buf

open Buf in
/-- `Buffer` from `src/buffer.rs`, restricted to the fields the verified
operations read or write: the rope and the modified flag.  (The file
path, backup path, line-ending kind, encoding, marks and file type are
only touched by I/O paths that are out of scope here.) -/
structure Buffer where
  text : Text
  modified : Bool
deriving DecidableEq, Repr

namespace Buffer

open Buf

/-- `Buffer::new()` / `Buffer::default()` (empty rope). -/
def new : Buffer := { text := [], modified := false }

/-- `Buffer::from_string(content)`: the rope holds the string as given. -/
def fromString (content : Text) : Buffer := { text := content, modified := false }

/-- `Buffer::line_count`. -/
def lineCount (b : Buffer) : Nat := lenLines b.text

/-- `Buffer::line_len`: the UTF-8 *byte* length (Rust `String::len`) of
the line with its trailing newline removed; `0` out of range.  The
callers in `editor.rs` feed this byte count into ropey's
character-indexed `delete_range` / `insert_char` arithmetic; byte and
character counts agree exactly when every character of the line is
single-byte, and the embedding preserves the mismatch elsewhere. -/
def lineLen (b : Buffer) (line : Nat) : Nat :=
  if line < lenLines b.text then
    utf8Len (trimEndNl (sliceChars b.text (lineToChar b.text line) (lineToChar b.text (line + 1))))
  else 0

/-- `Buffer::get_line`: the line's text without its trailing newline;
`None` out of range. -/
def getLine (b : Buffer) (line : Nat) : Option Text :=
  if line < lenLines b.text then
    some (trimEndNl (sliceChars b.text (lineToChar b.text line) (lineToChar b.text (line + 1))))
  else none

/-- `Buffer::insert_char`.  (`set_modified(true)` also creates a backup
file on the first modification; that I/O side effect is outside the
model.) -/
def insertChar (b : Buffer) (line col : Nat) (ch : Char) : Buffer :=
  if line < lenLines b.text then
    let lineStart := lineToChar b.text line
    let insertPos := lineStart + min col (b.lineLen line)
    { text := insertAt b.text insertPos ch, modified := true }
  else b

/-- `Buffer::insert_newline`. -/
def insertNewline (b : Buffer) (line col : Nat) : Buffer :=
  if line < lenLines b.text then
    let lineStart := lineToChar b.text line
    let insertPos := lineStart + min col (b.lineLen line)
    { text := insertAt b.text insertPos '\n', modified := true }
  else b

/-- `Buffer::delete_char`. -/
def deleteChar (b : Buffer) (line col : Nat) : Buffer :=
  if line < lenLines b.text ∧ col < b.lineLen line then
    let deletePos := lineToChar b.text line + col
    { text := removeChars b.text deletePos (deletePos + 1), modified := true }
  else b

/-- `Buffer::delete_range`.  An end column of `usize::MAX` means
"through the end of that line's terminator or the buffer end". -/
def deleteRange (b : Buffer) (startLine startCol endLine endCol : Nat) : Buffer :=
  let startChar := lineToChar b.text startLine + startCol
  let endChar :=
    if endCol = usizeMax then
      if endLine + 1 < lenLines b.text then lineToChar b.text (endLine + 1)
      else lenChars b.text
    else lineToChar b.text endLine + endCol
  if startChar ≤ endChar ∧ endChar ≤ lenChars b.text then
    { text := removeChars b.text startChar endChar, modified := true }
  else b

end Buffer

/-- The four buffer-mutating operations named by the spec's buffer
invariant, as a syntax of operations so that arbitrary sequences can be
quantified over. -/
inductive BufOp where
  | insertChar (line col : Nat) (ch : Char)
  | insertNewline (line col : Nat)
  | deleteChar (line col : Nat)
  | deleteRange (startLine startCol endLine endCol : Nat)
deriving DecidableEq, Repr

/-- Apply one buffer operation. -/
def applyBufOp (b : Buffer) : BufOp → Buffer
  | .insertChar line col ch => b.insertChar line col ch
  | .insertNewline line col => b.insertNewline line col
  | .deleteChar line col => b.deleteChar line col
  | .deleteRange sl sc el ec => b.deleteRange sl sc el ec

/-- Apply a sequence of buffer operations. -/
def applyBufOps (b : Buffer) (ops : List BufOp) : Buffer := ops.foldl applyBufOp b

namespace Buf

/-- Split a rope's content into its lines (ropey's line decomposition:
one more line than there are newlines; the text after the final newline
is the last line, possibly empty). -/
def splitNl : Text → List Text
  | [] => [[]]
  | c :: cs =>
    if c = '\n' then [] :: splitNl cs
    else
      match splitNl cs with
      | [] => [[c]]
      | l :: ls => (c :: l) :: ls

/-- Inverse of `splitNl`: join lines with single newlines, no trailing
newline after the last line. -/
def joinNl : List Text → Text
  | [] => []
  | [l] => l
  | l :: l2 :: ls => l ++ '\n' :: joinNl (l2 :: ls)

end Buf

namespace Buffer

open Buf

end Buffer

/-- `RegisterContent` from `src/register.rs`.  (A later snapshot of the
editor also carries a `Macro` variant; the register module under
verification has exactly these three.) -/
inductive RegisterContent where
  | char (s : Text)
  | line (lines : List Text)
  | block (lines : List Text)
deriving DecidableEq, Repr

/-- `RegisterContent::as_string`. -/
def RegisterContent.asString : RegisterContent → Text
  | .char s => s
  | .line lines => Buf.joinNl lines ++ ['\n']
  | .block lines => Buf.joinNl lines

/-- `RegisterManager` from `src/register.rs`.  The `arboard::Clipboard`
handle is modelled as an optional system-clipboard text: `none` when no
clipboard handle could be obtained.  A successful `set_text` stores the
text; the code swallows clipboard failures, and this model takes the
success path. -/
structure RegisterManager where
  registers : Char → Option RegisterContent
  unnamed : RegisterContent
  lastYank : RegisterContent
  lastDelete : RegisterContent
  clipboard : Option Text
  filename : Text
  lastCommand : Text
  lastInserted : Text

/-- `RegisterManager::new()`. -/
def RegisterManager.new : RegisterManager where
  registers := fun _ => none
  unnamed := .char []
  lastYank := .char []
  lastDelete := .char []
  clipboard := some []
  filename := []
  lastCommand := []
  lastInserted := []

/-- `RegisterManager::set`. -/
def RegisterManager.set (m : RegisterManager) (register : Option Char)
    (content : RegisterContent) : RegisterManager :=
  -- Black hole register: do nothing
  if register = some '_' then m
  -- Read-only registers: ignore set
  else if register = some '%' ∨ register = some '#' ∨ register = some ':' ∨
      register = some '.' then m
  else
    let m1 := { m with unnamed := content }
    match register with
    | some reg =>
      if reg = '+' ∨ reg = '*' then
        { m1 with clipboard := m1.clipboard.map (fun _ => content.asString) }
      else
        { m1 with registers := fun x => if x = reg then some content else m1.registers x }
    | none => m1

/-- `RegisterManager::set_yank`. -/
def RegisterManager.setYank (m : RegisterManager) (register : Option Char)
    (content : RegisterContent) : RegisterManager :=
  RegisterManager.set { m with lastYank := content } register content

/-- `RegisterManager::set_delete`. -/
def RegisterManager.setDelete (m : RegisterManager) (register : Option Char)
    (content : RegisterContent) : RegisterManager :=
  RegisterManager.set { m with lastDelete := content } register content

/-- `RegisterManager::get`. -/
def RegisterManager.get (m : RegisterManager) : Option Char → Option RegisterContent
  | none => some m.unnamed
  | some '0' => some m.lastYank
  | some '"' => some m.unnamed
  | some '_' => none
  | some '%' => some (.char m.filename)
  | some ':' => some (.char m.lastCommand)
  | some '.' => some (.char m.lastInserted)
  | some '#' => none
  | some '+' => m.clipboard.map .char
  | some '*' => m.clipboard.map .char
  | some reg =>
    if ('a' ≤ reg ∧ reg ≤ 'z') ∨ ('A' ≤ reg ∧ reg ≤ 'Z') then m.registers reg
    else none

/-- The left-to-right non-overlapping replacement scan of Rust
`str::replace`, with an explicit fuel argument so the recursion is
structural; each step consumes at least one character, so any fuel of at
least the string's length computes the full scan. -/
def scanReplace (pat rep : Text) : Nat → Text → Text
  | 0, s => s
  | fuel + 1, s =>
    if pat.isPrefixOf s ∧ pat ≠ [] then
      rep ++ scanReplace pat rep fuel (s.drop pat.length)
    else
      match s with
      | [] => []
      | c :: cs => c :: scanReplace pat rep fuel cs

/-- Rust `str::replace(pattern, replacement)` for a *nonempty* literal
pattern: scan left to right, replacing each non-overlapping occurrence.
(For an empty pattern Rust inserts the replacement between characters;
the substitute paths under verification use the nonempty pattern of the
parsed command, and this model keeps the string unchanged for an empty
pattern.) -/
def replaceAll (pat rep : Text) (s : Text) : Text := scanReplace pat rep s.length s

/-- Rust `str::replacen(pattern, replacement, 1)` for a nonempty
pattern: replace only the first occurrence. -/
def replaceFirst (pat rep : Text) (s : Text) : Text :=
  if pat.isPrefixOf s ∧ pat ≠ [] then
    rep ++ s.drop pat.length
  else
    match s with
    | [] => []
    | c :: cs => c :: replaceFirst pat rep cs

/-- The occurrence-counting scan of Rust `str::matches(..).count()`,
fuelled like `scanReplace`. -/
def scanCount (pat : Text) : Nat → Text → Nat
  | 0, _ => 0
  | fuel + 1, s =>
    if pat.isPrefixOf s ∧ pat ≠ [] then
      1 + scanCount pat fuel (s.drop pat.length)
    else
      match s with
      | [] => 0
      | _ :: cs => scanCount pat fuel cs

/-- Rust `str::matches(pattern).count()` for a nonempty pattern: the
number of non-overlapping occurrences, scanning left to right. -/
def countOccs (pat : Text) (s : Text) : Nat := scanCount pat s.length s

/-- Rust `str::contains(pattern)` for a nonempty pattern. -/
def containsSub (pat : Text) (s : Text) : Bool :=
  if pat.isPrefixOf s ∧ pat ≠ [] then true
  else
    match s with
    | [] => false
    | _ :: cs => containsSub pat cs

/-- Decimal rendering of a `usize`, as used by Rust `format!("{}", n)`. -/
def natText (n : Nat) : Text := (Nat.repr n).toList

/-- `Range` from `src/command.rs`: a 1-indexed inclusive line range.
(The Rust field `end` is a Lean keyword and is rendered `endL`.) -/
structure CmdRange where
  start : Nat
  endL : Nat
deriving DecidableEq, Repr

/-- The slice of `Editor` state (`src/editor.rs`) read or written by the
verified command paths: the current buffer, the cursor of the single
active window, the pending count, the status message, and the register
bank.  (The jump/change lists, dot-repeat slot, pending-operator tag and
mode are untouched by the statements proved about these paths and are
modelled separately where a claim needs them.) -/
structure EdState where
  buffer : Buffer
  cursorLine : Nat
  cursorCol : Nat
  count : Nat
  message : Option Text
  registers : RegisterManager

/-- `Editor::clamp_cursor` in Normal mode (the mode in which the
verified command paths run): the line is clamped into range, and the
column is clamped to the last character when the line is non-empty. -/
def clampCursor (st : EdState) : EdState :=
  let lineCount := max st.buffer.lineCount 1
  let line := min st.cursorLine (lineCount - 1)
  let lineLen := st.buffer.lineLen line
  let col := if 0 < lineLen then min st.cursorCol (lineLen - 1) else st.cursorCol
  { st with cursorLine := line, cursorCol := col }

/-- The `for line_idx in start..=end { if let Some(text) = get_line .. }`
collection loop shared by the `dd`/`yy`/`cc` arms of
`Editor::handle_operator_motion`. -/
def collectLines (b : Buffer) (startLine endLine : Nat) : List Text :=
  (List.range' startLine (endLine + 1 - startLine)).filterMap (fun i => b.getLine i)

/-- The deletion loop of the `delete_line` arm of
`Editor::handle_operator_motion`: up to `count` iterations; a line that
is not the last is removed together with its newline; the last line of a
multi-line buffer is removed by deleting from the end of the previous
line, moving the cursor up, and breaking; a 1-line buffer breaks
immediately. -/
def ddDeleteLoop : Nat → EdState → EdState
  | 0, st => st
  | k + 1, st =>
    let line := st.cursorLine
    let bufferLineCount := st.buffer.lineCount
    if line < bufferLineCount - 1 then
      ddDeleteLoop k { st with buffer := st.buffer.deleteRange line 0 (line + 1) 0 }
    else if 0 < line then
      let prevLineLen := st.buffer.lineLen (line - 1)
      let currentLineLen := st.buffer.lineLen line
      { st with
        buffer := st.buffer.deleteRange (line - 1) prevLineLen line currentLineLen,
        cursorLine := line - 1 }
    else st

/-- The `delete_line` arm of `Editor::handle_operator_motion` (operator
doubling `dd`, reached with a pending Delete operator when the mapped
action is again Delete): collects the lines from the cursor line through
`min (cursor + count - 1) (line_count - 1)`, stores them line-wise into
the unnamed register via `set_delete(None, ..)`, runs the deletion loop
`count` times, and clamps the cursor.  (`record_change` and the
pending-operator reset touch state outside this slice.) -/
def ddDeleteLines (st : EdState) : EdState :=
  let count := if st.count = 0 then 1 else st.count
  let startLine := st.cursorLine
  let lineCount := st.buffer.lineCount
  let endLine := min (startLine + count - 1) (lineCount - 1)
  let lines := collectLines st.buffer startLine endLine
  let st1 := { st with registers := st.registers.setDelete none (.line lines) }
  clampCursor (ddDeleteLoop count st1)

/-- `Editor::execute_substitute_line`: substitute on one line, returning
the new state and the per-line match count; a line with at least one
match is rewritten by deleting its content and re-inserting the replaced
text character by character. -/
def executeSubstituteLine (st : EdState) (line : Nat) (pattern replacement : Text)
    (global : Bool) : EdState × Nat :=
  match st.buffer.getLine line with
  | some lineText =>
    let newText := if global then replaceAll pattern replacement lineText
      else replaceFirst pattern replacement lineText
    let count := if global then countOccs pattern lineText
      else if containsSub pattern lineText then 1 else 0
    if count > 0 then
      let lineLen := st.buffer.lineLen line
      let st1 := { st with buffer := st.buffer.deleteRange line 0 line lineLen }
      let st2 := { st1 with
        buffer := (newText.enum.foldl
          (fun b (p : Nat × Char) => b.insertChar line p.1 p.2) st1.buffer) }
      (st2, count)
    else (st, count)
  | none => (st, 0)

/-- The `format!("{} substitution{} on {} line{}", ..)` status message of
the `Command::Substitute` arm. -/
def substMsgText (totalCount rangeCount : Nat) : Text :=
  natText totalCount ++ " substitution".toList ++
    (if totalCount = 1 then [] else "s".toList) ++ " on ".toList ++
    natText rangeCount ++ " line".toList ++
    (if rangeCount ≠ 1 then "s".toList else [])

/-- One iteration of the `for line in start_line..=end_line` loop of the
`Command::Substitute` arm: substitute on the line and accumulate the
returned count into the running total. -/
def substituteFoldStep (pattern replacement : Text) (global : Bool)
    (a : EdState × Nat) (line : Nat) : EdState × Nat :=
  let out := executeSubstituteLine a.1 line pattern replacement global
  (out.1, a.2 + out.2)

/-- The `Command::Substitute` arm of `Editor::execute_command`:
resolves the range (current line when absent; `usize::MAX` as the
1-indexed end means "last line"), substitutes line by line accumulating
the total count, and reports either `"N substitution(s) on M line(s)"`
or `"Pattern not found"`. -/
def executeCmdSubstitute (st : EdState) (pattern replacement : Text) (global : Bool)
    (range : Option CmdRange) : EdState :=
  let currentLine := st.cursorLine
  let lineCount := st.buffer.lineCount
  let startLine :=
    match range with
    | some r => r.start - 1
    | none => currentLine
  let endLine :=
    match range with
    | some r => if r.endL = usizeMax then lineCount - 1 else min (r.endL - 1) (lineCount - 1)
    | none => currentLine
  let res := (List.range' startLine (endLine + 1 - startLine)).foldl
    (substituteFoldStep pattern replacement global) (st, 0)
  let totalCount := res.2
  let rangeCount := endLine - startLine + 1
  if 0 < totalCount then
    { res.1 with message := some (substMsgText totalCount rangeCount) }
  else
    { res.1 with message := some "Pattern not found".toList }

/-- The `Command::Delete` arm of `Editor::execute_command`: resolves the
1-indexed range clamping both ends to the last line, then iterates the
lines from high to low, deleting each line's content with `delete_range`
and then calling `delete_char(line, 0)` "to delete the newline", sets
the `"N line(s) deleted"` message, and clamps the cursor. -/
def executeCmdDelete (st : EdState) (range : Option CmdRange) : EdState :=
  match range with
  | some r =>
    let lineCount := st.buffer.lineCount
    let startL := min (r.start - 1) (lineCount - 1)
    let endL := if r.endL = usizeMax then lineCount - 1
      else min (r.endL - 1) (lineCount - 1)
    let st1 := (List.range' startL (endL + 1 - startL)).reverse.foldl
      (fun (st : EdState) line =>
        let lineLen := st.buffer.lineLen line
        let stA := { st with buffer := st.buffer.deleteRange line 0 line lineLen }
        -- "Also delete the newline if not the last line"
        if line < stA.buffer.lineCount then
          { stA with buffer := stA.buffer.deleteChar line 0 }
        else stA) st
    let deletedCount := endL - startL + 1
    let msg := natText deletedCount ++ " line".toList ++
      (if deletedCount ≠ 1 then "s".toList else []) ++ " deleted".toList
    clampCursor { st1 with message := some msg }
  | none => { st with message := some "No range specified".toList }

/-- The literal pattern of the claim's substitute command `:%s/foo/bar/g`. -/
def fooPat : Text := ['f', 'o', 'o']

/-- The literal replacement of the claim's substitute command. -/
def barRep : Text := ['b', 'a', 'r']

/-- The change-list slice of `Editor` state: `change_list` and
`change_index` from `src/editor.rs`. -/
structure ChangeListState where
  changeList : List (Nat × Nat)
  changeIndex : Nat
deriving DecidableEq, Repr

/-- The change-list part of `Editor::record_change` (the dot-repeat slot
is separate state): push the position, point the index at the new last
entry, and if the list now exceeds 100 entries remove the oldest and
shift the index down. -/
def recordChangePos (s : ChangeListState) (pos : Nat × Nat) : ChangeListState :=
  let cl := s.changeList ++ [pos]
  let ci := cl.length - 1
  if cl.length > 100 then { changeList := cl.drop 1, changeIndex := ci - 1 }
  else { changeList := cl, changeIndex := ci }

/-- The jump-list slice of `Editor` state: `jump_list` and `jump_index`
from `src/editor.rs`. -/
structure JumpListState where
  jumpList : List (Nat × Nat)
  jumpIndex : Nat
deriving DecidableEq, Repr

/-- `Editor::save_jump_position` (the `'`/`` ` `` mark updates touch
buffer state outside this slice): truncate any forward history when the
index is inside the list, then append the position unless it equals the
current last entry.  Note: unlike `record_change`, no size cap is
applied. -/
def saveJumpPosition (s : JumpListState) (pos : Nat × Nat) : JumpListState :=
  let jl := if s.jumpIndex < s.jumpList.length - 1 then s.jumpList.take (s.jumpIndex + 1)
    else s.jumpList
  if jl = [] ∨ jl.getLast? ≠ some pos then
    { jumpList := jl ++ [pos], jumpIndex := (jl ++ [pos]).length - 1 }
  else
    { s with jumpList := jl }

/-- `Mode` from `src/mode.rs`. -/
inductive Mode where
  | normal
  | insert
  | replace
  | visual
  | visualLine
  | visualBlock
  | command
  | search
  | fuzzyFind
deriving DecidableEq, Repr

/-- `Position` from `src/selection.rs`. -/
structure Position where
  line : Nat
  col : Nat
deriving DecidableEq, Repr

/-- `Selection` from `src/selection.rs`. -/
structure Selection where
  anchor : Position
  cursor : Position
  mode : Mode
deriving DecidableEq, Repr

namespace Selection

/-- `Selection::range`: normalize anchor/cursor into (start, end) by
(line, column); the `VisualLine` shape widens to whole lines, with the
end column the `usize::MAX` sentinel "to be clamped to line length". -/
def range (s : Selection) : Position × Position :=
  let (start, stop) :=
    if s.anchor.line < s.cursor.line ∨
        (s.anchor.line = s.cursor.line ∧ s.anchor.col ≤ s.cursor.col) then
      (s.anchor, s.cursor)
    else
      (s.cursor, s.anchor)
  match s.mode with
  | .visual => (start, stop)
  | .visualLine => (⟨start.line, 0⟩, ⟨stop.line, usizeMax⟩)
  | .visualBlock => (start, stop)
  | _ => (start, stop)

/-- `Selection::contains`. -/
def contains (s : Selection) (line col : Nat) : Bool :=
  let (start, stop) := s.range
  match s.mode with
  | .visual =>
    if line < start.line ∨ line > stop.line then false
    else if start.line = stop.line then start.col ≤ col ∧ col ≤ stop.col
    else if line = start.line then start.col ≤ col
    else if line = stop.line then col ≤ stop.col
    else true
  | .visualLine => start.line ≤ line ∧ line ≤ stop.line
  | .visualBlock =>
    if line < start.line ∨ line > stop.line then false
    else
      let mn := if start.col ≤ stop.col then start.col else stop.col
      let mx := if start.col ≤ stop.col then stop.col else start.col
      mn ≤ col ∧ col ≤ mx
  | _ => false

end Selection

/-- Lexicographic (line, column) order on positions. -/
def posLe (a b : Position) : Prop :=
  a.line < b.line ∨ (a.line = b.line ∧ a.col ≤ b.col)

/-- Rust `str::parse::<usize>()`: an optional leading `'+'`, then at
least one ASCII digit, with overflow past `usize::MAX` rejected. -/
def parseUsize (s : Text) : Option Nat :=
  let digits := match s with
    | '+' :: rest => rest
    | _ => s
  if digits ≠ [] ∧ digits.all (·.isDigit) then
    let n := digits.foldl (fun acc c => acc * 10 + (c.toNat - '0'.toNat)) 0
    if n ≤ usizeMax then some n else none
  else none

/-- `LineNumberMode` from `src/config.rs`. -/
inductive LineNumberMode where
  | none
  | absolute
  | relative
  | relativeAbsolute
deriving DecidableEq, Repr

/-- `Config` from `src/config.rs`. -/
structure Config where
  lineNumbers : LineNumberMode
  showCurrentLine : Bool
  tabWidth : Nat
  expandTab : Bool
  autoIndent : Bool
  highlightSearch : Bool
  ignoreCase : Bool
  smartCase : Bool
  zenMode : Bool
  zenModeWidth : Nat
deriving DecidableEq, Repr

/-- `Config::new()`. -/
def Config.new : Config where
  lineNumbers := .absolute
  showCurrentLine := true
  tabWidth := 4
  expandTab := true
  autoIndent := true
  highlightSearch := true
  ignoreCase := false
  smartCase := true
  zenMode := false
  zenModeWidth := 80

/-- `Config::set`: returns the updated config and `Ok`/`Err` (the Rust
method mutates `self` and returns `Result<(), String>`; errors leave
the config unchanged). -/
def Config.set (c : Config) (option : Text) (value : Option Text) :
    Config × Except Text Unit :=
  if option = "number".toList ∨ option = "nu".toList then
    ({ c with lineNumbers := .absolute }, .ok ())
  else if option = "nonumber".toList ∨ option = "nonu".toList then
    ({ c with lineNumbers := .none }, .ok ())
  else if option = "relativenumber".toList ∨ option = "rnu".toList then
    ({ c with lineNumbers := .relative }, .ok ())
  else if option = "norelativenumber".toList ∨ option = "nornu".toList then
    (if c.lineNumbers = .relative ∨ c.lineNumbers = .relativeAbsolute then
      { c with lineNumbers := .absolute } else c, .ok ())
  else if option = "expandtab".toList ∨ option = "et".toList then
    ({ c with expandTab := true }, .ok ())
  else if option = "noexpandtab".toList ∨ option = "noet".toList then
    ({ c with expandTab := false }, .ok ())
  else if option = "autoindent".toList ∨ option = "ai".toList then
    ({ c with autoIndent := true }, .ok ())
  else if option = "noautoindent".toList ∨ option = "noai".toList then
    ({ c with autoIndent := false }, .ok ())
  else if option = "hlsearch".toList ∨ option = "hls".toList then
    ({ c with highlightSearch := true }, .ok ())
  else if option = "nohlsearch".toList ∨ option = "nohls".toList then
    ({ c with highlightSearch := false }, .ok ())
  else if option = "ignorecase".toList ∨ option = "ic".toList then
    ({ c with ignoreCase := true }, .ok ())
  else if option = "noignorecase".toList ∨ option = "noic".toList then
    ({ c with ignoreCase := false }, .ok ())
  else if option = "smartcase".toList ∨ option = "scs".toList then
    ({ c with smartCase := true }, .ok ())
  else if option = "nosmartcase".toList ∨ option = "noscs".toList then
    ({ c with smartCase := false }, .ok ())
  else if option = "tabstop".toList ∨ option = "ts".toList then
    match value with
    | some val =>
      match parseUsize val with
      | some width => ({ c with tabWidth := min (max width 1) 16 }, .ok ())
      | none => (c, .error ("Invalid value for tabstop: ".toList ++ val))
    | none => (c, .error "tabstop requires a value".toList)
  else (c, .error ("Unknown option: ".toList ++ option))

/-- `Command` from `src/command.rs`. -/
inductive Command where
  | write
  | quit
  | writeQuit
  | forceQuit
  | edit (path : Text)
  | goToLine (n : Nat)
  | substitute (pattern replacement : Text) (global : Bool) (range : Option CmdRange)
  | set (option : Text) (value : Option Text)
  | delete (range : Option CmdRange)
  | help (topic : Option Text)
  | bufferNext
  | bufferPrevious
  | bufferList
  | bufferDelete (n : Option Nat)
  | split
  | verticalSplit
  | closeWindow
  | unknown (text : Text)
deriving DecidableEq, Repr

/-- Rust `str::trim` (whitespace from both ends). -/
def trimText (s : Text) : Text :=
  ((s.dropWhile Char.isWhitespace).reverse.dropWhile Char.isWhitespace).reverse

/-- `input.strip_prefix(':').unwrap_or(input)`. -/
def stripColon (s : Text) : Text :=
  match s with
  | ':' :: rest => rest
  | _ => s

/-- Rust `str::split(sep).collect()`: one more part than separator
occurrences. -/
def splitOn (sep : Char) : Text → List Text
  | [] => [[]]
  | c :: cs =>
    if c = sep then [] :: splitOn sep cs
    else
      match splitOn sep cs with
      | [] => [[c]]
      | l :: ls => (c :: l) :: ls

/-- `parse_range` from `src/command.rs`: a leading `%` is the
whole-buffer range `1..usize::MAX`; `a,b` with both sides parsing as
usizes is an explicit range; a bare leading number is a one-line range;
anything else leaves the input untouched with no range. -/
def parseRange (input : Text) : Option CmdRange × Text :=
  if input.head? = some '%' then (some ⟨1, usizeMax⟩, input.drop 1)
  else
    -- Handle single line number (e.g. 10d); reached when the
    -- `line,line` parse below does not apply
    let fallback :=
      match input.findIdx? (fun c => !c.isDigit) with
      | some firstNonDigit =>
        match parseUsize (input.take firstNonDigit) with
        | some line => (some ⟨line, line⟩, input.drop firstNonDigit)
        | none => (none, input)
      | none => (none, input)
    match input.findIdx? (fun c => c = ',') with
    | some commaPos =>
      let beforeComma := input.take commaPos
      let afterComma := input.drop (commaPos + 1)
      match afterComma.findIdx? (fun c => !c.isDigit) with
      | some cmdStart =>
        match parseUsize beforeComma, parseUsize (afterComma.take cmdStart) with
        | some start, some stop => (some ⟨start, stop⟩, afterComma.drop cmdStart)
        | _, _ => fallback
      | none => fallback
    | none => fallback

/-- `parse_substitute` from `src/command.rs`: strip the `s/` prefix,
split on `/`; fewer than two parts is a parse error; a third part
carrying `g` sets the global flag. -/
def parseSubstitute (input : Text) (range : Option CmdRange) : Except Text Command :=
  let input2 := if "s/".toList.isPrefixOf input then input.drop 2 else input
  let parts := splitOn '/' input2
  if parts.length < 2 then .error "Invalid substitute syntax".toList
  else
    let pattern := parts.getD 0 []
    let replacement := parts.getD 1 []
    let flags := if 2 < parts.length then parts.getD 2 [] else []
    .ok (.substitute pattern replacement (flags.contains 'g') range)

/-- `parse_set` from `src/command.rs`: `option=value` or bare
`option`; always succeeds. -/
def parseSet (args : Text) : Except Text Command :=
  match args.findIdx? (fun c => c = '=') with
  | some i => .ok (.set (trimText (args.take i)) (some (trimText (args.drop (i + 1)))))
  | none => .ok (.set args none)

/-- The wildcard arm of `parse_command`'s `match` after the substitute
check: number, `e`/`edit`, `set`, `help`, buffer and window commands,
and the `Unknown` fallback.  None of these paths returns an error. -/
def parseCommandRest (command : Text) (range : Option CmdRange) : Except Text Command :=
  match parseUsize command with
  | some lineNum => .ok (.goToLine lineNum)
  | none =>
    if "e ".toList.isPrefixOf command then .ok (.edit (trimText (command.drop 2)))
    else if "edit ".toList.isPrefixOf command then .ok (.edit (trimText (command.drop 5)))
    else if "set ".toList.isPrefixOf command then parseSet (trimText (command.drop 4))
    else if command = "set".toList then .ok (.unknown "set".toList)
    else if "help ".toList.isPrefixOf command then
      .ok (.help (some (trimText (command.drop 5))))
    else if command = "help".toList ∨ command = "h".toList then .ok (.help none)
    else if command = "bn".toList ∨ command = "bnext".toList then .ok .bufferNext
    else if command = "bp".toList ∨ command = "bprevious".toList then .ok .bufferPrevious
    else if command = "ls".toList ∨ command = "buffers".toList then .ok .bufferList
    else if command = "bd".toList ∨ command = "bdelete".toList then
      .ok (.bufferDelete none)
    else if "bd ".toList.isPrefixOf command then
      match parseUsize (trimText (command.drop 3)) with
      | some num => .ok (.bufferDelete (some num))
      | none => .ok (.unknown command)
    else if command = "sp".toList ∨ command = "split".toList then .ok .split
    else if command = "vsp".toList ∨ command = "vsplit".toList then .ok .verticalSplit
    else if command = "close".toList ∨ command = "clo".toList then .ok .closeWindow
    else .ok (.unknown command)

/-- `parse_command` from `src/command.rs`. -/
def parseCommand (rawInput : Text) : Except Text Command :=
  let input := trimText rawInput
  if input = [] then .error "Empty command".toList
  else
    let input2 := stripColon input
    let pr := parseRange input2
    let range := pr.1
    let command := pr.2
    if command = "w".toList ∨ command = "write".toList then .ok .write
    else if command = "q".toList ∨ command = "quit".toList then .ok .quit
    else if command = "wq".toList ∨ command = "x".toList then .ok .writeQuit
    else if command = "q!".toList then .ok .forceQuit
    else if command = "d".toList ∨ command = "delete".toList then .ok (.delete range)
    else if "s/".toList.isPrefixOf command then parseSubstitute command range
    else parseCommandRest command range

/-- Whether an `Except` value is the `Err` case. -/
def exceptIsErr {ε α : Type} : Except ε α → Bool
  | .error _ => true
  | .ok _ => false


/-! ## Theorems -/

namespace Buffer

open Buf

end Buffer

/-- C1. Every buffer — whatever content it was created with and whatever
sequence of `insert_char` / `insert_newline` / `delete_char` /
`delete_range` operations has been applied, including ones that delete
all content — reports `line_count() ≥ 1`, because ropey's `len_lines`
counts one line more than the number of newline characters. -/
theorem buffer_line_count_ge_one (content : Text) (ops : List BufOp) :
    1 ≤ (applyBufOps (Buffer.fromString content) ops).lineCount := by
  show 1 ≤ Buf.lenLines _
  exact Nat.le_add_left 1 _

namespace Buf

theorem splitNl_ne_nil (t : Text) : splitNl t ≠ [] := by
  cases t with
  | nil => simp [splitNl]
  | cons c cs =>
    simp only [splitNl]
    split
    · simp
    · cases h : splitNl cs <;> simp

theorem length_splitNl (t : Text) : (splitNl t).length = countNl t + 1 := by
  induction t with
  | nil => simp [splitNl, countNl]
  | cons c cs ih =>
    simp only [splitNl]
    by_cases hc : c = '\n'
    · simp only [if_pos hc, List.length_cons, ih, countNl, hc, List.count_cons]
      simp [countNl] at ih ⊢
      omega
    · simp only [if_neg hc]
      cases h : splitNl cs with
      | nil => exact absurd h (splitNl_ne_nil cs)
      | cons l ls =>
        have : countNl (c :: cs) = countNl cs := by
          simp [countNl, List.count_cons, hc]
        rw [this, ← ih, h]
        simp

theorem nlFree_splitNl (t : Text) : ∀ l ∈ splitNl t, '\n' ∉ l := by
  induction t with
  | nil => simp [splitNl]
  | cons c cs ih =>
    simp only [splitNl]
    by_cases hc : c = '\n'
    · simp only [if_pos hc]
      intro l hl
      rcases List.mem_cons.mp hl with h | h
      · simp [h]
      · exact ih l h
    · simp only [if_neg hc]
      cases h : splitNl cs with
      | nil => exact absurd h (splitNl_ne_nil cs)
      | cons l ls =>
        intro x hx
        rcases List.mem_cons.mp hx with hx | hx
        · subst hx
          intro hmem
          rcases List.mem_cons.mp hmem with h1 | h1
          · exact hc h1.symm
          · exact ih l (h ▸ List.mem_cons_self l ls) h1
        · exact ih x (h ▸ List.mem_cons_of_mem l hx)

theorem joinNl_cons_of_ne_nil (l : Text) (ls : List Text) (h : ls ≠ []) :
    joinNl (l :: ls) = l ++ '\n' :: joinNl ls := by
  cases ls with
  | nil => exact absurd rfl h
  | cons l2 ls' => rfl

theorem joinNl_splitNl (t : Text) : joinNl (splitNl t) = t := by
  induction t with
  | nil => simp [splitNl, joinNl]
  | cons c cs ih =>
    simp only [splitNl]
    by_cases hc : c = '\n'
    · rw [if_pos hc, joinNl_cons_of_ne_nil _ _ (splitNl_ne_nil cs), ih, hc]
      simp
    · rw [if_neg hc]
      cases h : splitNl cs with
      | nil => exact absurd h (splitNl_ne_nil cs)
      | cons l ls =>
        cases ls with
        | nil =>
          rw [h] at ih
          simpa [joinNl] using congrArg (c :: ·) ih
        | cons l2 ls' =>
          rw [joinNl_cons_of_ne_nil _ _ (by simp)]
          rw [h, joinNl_cons_of_ne_nil _ _ (by simp)] at ih
          simpa using congrArg (c :: ·) ih

theorem countNl_append (a b : Text) : countNl (a ++ b) = countNl a + countNl b := by
  simp [countNl, List.count_append]

theorem countNl_of_nlFree {l : Text} (h : '\n' ∉ l) : countNl l = 0 :=
  List.count_eq_zero.mpr h

theorem lenLines_joinNl {ls : List Text} (hnf : ∀ l ∈ ls, '\n' ∉ l) (hne : ls ≠ []) :
    lenLines (joinNl ls) = ls.length := by
  induction ls with
  | nil => exact absurd rfl hne
  | cons l ls' ih =>
    cases ls' with
    | nil =>
      simp [joinNl, lenLines, countNl_of_nlFree (hnf l (by simp))]
    | cons l2 ls'' =>
      rw [joinNl_cons_of_ne_nil _ _ (by simp)]
      have h1 : lenLines (joinNl (l2 :: ls'')) = (l2 :: ls'').length :=
        ih (fun x hx => hnf x (List.mem_cons_of_mem l hx)) (by simp)
      have h2 : countNl ('\n' :: joinNl (l2 :: ls'')) = countNl (joinNl (l2 :: ls'')) + 1 := by
        simp [countNl, List.count_cons]
      simp only [lenLines, countNl_append, countNl_of_nlFree (hnf l (by simp)),
        List.length_cons, h2] at *
      omega

theorem lineToChar_zero (t : Text) : lineToChar t 0 = 0 := by
  cases t <;> rfl

theorem lineToChar_le_length (t : Text) (i : Nat) : lineToChar t i ≤ t.length := by
  induction t generalizing i with
  | nil => cases i <;> simp [lineToChar]
  | cons c cs ih =>
    cases i with
    | zero => simp [lineToChar]
    | succ n =>
      simp only [lineToChar, List.length_cons]
      by_cases hc : c = '\n'
      · have := ih n; simp only [if_pos hc]; omega
      · have := ih (n + 1); simp only [if_neg hc]; omega

theorem lineToChar_mono (t : Text) {i j : Nat} (h : i ≤ j) :
    lineToChar t i ≤ lineToChar t j := by
  induction t generalizing i j with
  | nil => cases i <;> cases j <;> simp [lineToChar]
  | cons c cs ih =>
    cases i with
    | zero => rw [lineToChar_zero]; exact Nat.zero_le _
    | succ m =>
      cases j with
      | zero => omega
      | succ n =>
        have hmn : m ≤ n := Nat.succ_le_succ_iff.mp h
        simp only [lineToChar]
        by_cases hc : c = '\n'
        · simp only [if_pos hc]; exact Nat.add_le_add_left (ih hmn) 1
        · simp only [if_neg hc]; exact Nat.add_le_add_left (ih (Nat.succ_le_succ hmn)) 1

theorem lineToChar_nlFree {t : Text} (h : '\n' ∉ t) (n : Nat) :
    lineToChar t (n + 1) = t.length := by
  induction t generalizing n with
  | nil => simp [lineToChar]
  | cons c cs ih =>
    have hc : ¬(c = '\n') := fun hcc => h (by simp [hcc])
    simp only [lineToChar, if_neg hc, List.length_cons]
    rw [ih (fun hm => h (List.mem_cons_of_mem c hm))]
    omega

theorem lineToChar_append_nl {l : Text} (h : '\n' ∉ l) (s : Text) (n : Nat) :
    lineToChar (l ++ '\n' :: s) (n + 1) = l.length + 1 + lineToChar s n := by
  induction l generalizing n with
  | nil => simp [lineToChar]
  | cons c l' ih =>
    have hc : ¬(c = '\n') := fun hcc => h (by simp [hcc])
    have hih := ih (fun hm => h (List.mem_cons_of_mem c hm)) n
    show 1 + (if c = '\n' then lineToChar (l' ++ '\n' :: s) n
      else lineToChar (l' ++ '\n' :: s) (n + 1)) = (c :: l').length + 1 + lineToChar s n
    rw [if_neg hc, hih]
    simp only [List.length_cons]
    omega

theorem dropWhileNl_reverse {l : Text} (h : '\n' ∉ l) :
    l.reverse.dropWhile (· = '\n') = l.reverse := by
  cases hr : l.reverse with
  | nil => simp
  | cons a as =>
    have ha : a ∈ l := by
      rw [← List.mem_reverse, hr]; exact List.mem_cons_self a as
    have : ¬(a = '\n') := fun hc => h (hc ▸ ha)
    simp [List.dropWhile_cons, this]

theorem trimEndNl_of_nlFree {l : Text} (h : '\n' ∉ l) : trimEndNl l = l := by
  simp [trimEndNl, dropWhileNl_reverse h]

theorem trimEndNl_append_nl {l : Text} (h : '\n' ∉ l) : trimEndNl (l ++ ['\n']) = l := by
  simp only [trimEndNl, List.reverse_append, List.reverse_cons, List.reverse_nil,
    List.nil_append, List.singleton_append, List.dropWhile_cons]
  simp [dropWhileNl_reverse h]

theorem take_append_len (l m : Text) (x : Nat) :
    (l ++ m).take (l.length + x) = l ++ m.take x := by
  rw [List.take_append_eq_append_take]
  congr 1
  · exact List.take_of_length_le (by omega)
  · congr 1; omega

theorem drop_append_len (l m : Text) (x : Nat) :
    (l ++ m).drop (l.length + x) = m.drop x := by
  rw [List.drop_append_eq_append_drop]
  rw [List.drop_of_length_le (by omega)]
  simp only [List.nil_append]
  congr 1
  omega

theorem removeChars_shift (l m : Text) (x y : Nat) :
    removeChars (l ++ m) (l.length + x) (l.length + y) = l ++ removeChars m x y := by
  simp [removeChars, take_append_len, drop_append_len, List.append_assoc]

theorem sliceChars_shift (l m : Text) (x y : Nat) :
    sliceChars (l ++ m) (l.length + x) (l.length + y) = sliceChars m x y := by
  simp only [sliceChars, drop_append_len]
  congr 1
  omega

theorem insertAt_shift (l m : Text) (x : Nat) (c : Char) :
    insertAt (l ++ m) (l.length + x) c = l ++ insertAt m x c := by
  simp [insertAt, take_append_len, drop_append_len, List.append_assoc]

theorem sliceChars_line_shift (l s : Text) (x y : Nat) :
    sliceChars (l ++ '\n' :: s) (l.length + 1 + x) (l.length + 1 + y) = sliceChars s x y := by
  have h1 : l.length + 1 + x = l.length + (1 + x) := by omega
  have h2 : l.length + 1 + y = l.length + (1 + y) := by omega
  rw [h1, h2, sliceChars_shift]
  simp only [sliceChars, Nat.add_comm 1 x, Nat.add_comm 1 y, List.drop_succ_cons]
  congr 1
  omega

theorem removeChars_line_shift (l s : Text) (x y : Nat) :
    removeChars (l ++ '\n' :: s) (l.length + 1 + x) (l.length + 1 + y) =
      l ++ '\n' :: removeChars s x y := by
  have h1 : l.length + 1 + x = l.length + (1 + x) := by omega
  have h2 : l.length + 1 + y = l.length + (1 + y) := by omega
  rw [h1, h2, removeChars_shift]
  simp only [removeChars, Nat.add_comm 1 x, Nat.add_comm 1 y, List.drop_succ_cons,
    List.take_succ_cons]
  simp

theorem insertAt_line_shift (l s : Text) (x : Nat) (c : Char) :
    insertAt (l ++ '\n' :: s) (l.length + 1 + x) c = l ++ '\n' :: insertAt s x c := by
  have h1 : l.length + 1 + x = l.length + (1 + x) := by omega
  rw [h1, insertAt_shift]
  simp only [insertAt, Nat.add_comm 1 x, List.drop_succ_cons, List.take_succ_cons]
  simp

theorem lineSeg_joinNl {ls : List Text} (hnf : ∀ l ∈ ls, '\n' ∉ l) :
    ∀ i, i < ls.length →
      trimEndNl (sliceChars (joinNl ls) (lineToChar (joinNl ls) i)
        (lineToChar (joinNl ls) (i + 1))) = ls.getD i [] := by
  induction ls with
  | nil => intro i hi; simp at hi
  | cons l ls' ih =>
    intro i hi
    have hl : '\n' ∉ l := hnf l (by simp)
    cases ls' with
    | nil =>
      have hi0 : i = 0 := by simpa using hi
      subst hi0
      show trimEndNl (sliceChars (joinNl [l]) (lineToChar (joinNl [l]) 0)
        (lineToChar (joinNl [l]) 1)) = l
      simp only [joinNl, lineToChar_zero, lineToChar_nlFree hl 0, sliceChars,
        List.drop_zero, Nat.sub_zero, List.take_length]
      exact trimEndNl_of_nlFree hl
    | cons l2 ls'' =>
      rw [joinNl_cons_of_ne_nil _ _ (by simp)]
      set s := joinNl (l2 :: ls'') with hs
      cases i with
      | zero =>
        rw [lineToChar_zero, lineToChar_append_nl hl s 0, lineToChar_zero]
        show trimEndNl (sliceChars (l ++ '\n' :: s) 0 (l.length + 1 + 0)) = _
        simp only [sliceChars, List.drop_zero, Nat.sub_zero, Nat.add_zero]
        have : (l ++ '\n' :: s).take (l.length + 1) = l ++ ['\n'] := by
          rw [take_append_len]
          simp
        rw [this, trimEndNl_append_nl hl]
        simp
      | succ n =>
        rw [lineToChar_append_nl hl s n, lineToChar_append_nl hl s (n + 1),
          sliceChars_line_shift]
        have hn : n < (l2 :: ls'').length := by simpa using hi
        have := ih (fun x hx => hnf x (List.mem_cons_of_mem l hx)) n hn
        rw [this]
        simp

theorem lineToChar_add_len_le {ls : List Text} (hnf : ∀ l ∈ ls, '\n' ∉ l) :
    ∀ i, i < ls.length →
      lineToChar (joinNl ls) i + (ls.getD i []).length ≤ (joinNl ls).length := by
  induction ls with
  | nil => intro i hi; simp at hi
  | cons l ls' ih =>
    intro i hi
    have hl : '\n' ∉ l := hnf l (by simp)
    cases ls' with
    | nil =>
      have hi0 : i = 0 := by simpa using hi
      subst hi0
      simp [joinNl, lineToChar_zero]
    | cons l2 ls'' =>
      rw [joinNl_cons_of_ne_nil _ _ (by simp)]
      set s := joinNl (l2 :: ls'') with hs
      cases i with
      | zero =>
        rw [lineToChar_zero]
        simp
      | succ n =>
        rw [lineToChar_append_nl hl s n]
        have hn : n < (l2 :: ls'').length := by simpa using hi
        have := ih (fun x hx => hnf x (List.mem_cons_of_mem l hx)) n hn
        simp only [List.getD_cons_succ, List.length_append, List.length_cons]
        omega

theorem lineToChar_add_len_last {ls : List Text} (hnf : ∀ l ∈ ls, '\n' ∉ l) :
    ∀ i, i + 1 = ls.length →
      lineToChar (joinNl ls) i + (ls.getD i []).length = (joinNl ls).length := by
  induction ls with
  | nil => intro i hi; simp at hi
  | cons l ls' ih =>
    intro i hi
    have hl : '\n' ∉ l := hnf l (by simp)
    cases ls' with
    | nil =>
      have hi0 : i = 0 := by simpa using hi
      subst hi0
      simp [joinNl, lineToChar_zero]
    | cons l2 ls'' =>
      rw [joinNl_cons_of_ne_nil _ _ (by simp)]
      set s := joinNl (l2 :: ls'') with hs
      cases i with
      | zero => simp at hi
      | succ n =>
        rw [lineToChar_append_nl hl s n]
        have hn : n + 1 = (l2 :: ls'').length := by simpa using hi
        have := ih (fun x hx => hnf x (List.mem_cons_of_mem l hx)) n hn
        simp only [List.getD_cons_succ, List.length_append, List.length_cons]
        omega

theorem removeChars_inLine {ls : List Text} (hnf : ∀ l ∈ ls, '\n' ∉ l) :
    ∀ i, i < ls.length → ∀ a b, a ≤ b → b ≤ (ls.getD i []).length →
      removeChars (joinNl ls) (lineToChar (joinNl ls) i + a) (lineToChar (joinNl ls) i + b) =
        joinNl (ls.set i ((ls.getD i []).take a ++ (ls.getD i []).drop b)) := by
  induction ls with
  | nil => intro i hi; simp at hi
  | cons l ls' ih =>
    intro i hi a b hab hb
    have hl : '\n' ∉ l := hnf l (by simp)
    cases ls' with
    | nil =>
      have hi0 : i = 0 := by simpa using hi
      subst hi0
      simp only [List.getD_cons_zero] at hb
      show removeChars (joinNl [l]) (lineToChar (joinNl [l]) 0 + a)
        (lineToChar (joinNl [l]) 0 + b) = _
      simp only [joinNl, lineToChar_zero, Nat.zero_add, List.set_cons_zero,
        List.getD_cons_zero]
      rfl
    | cons l2 ls'' =>
      rw [joinNl_cons_of_ne_nil _ _ (by simp)]
      set s := joinNl (l2 :: ls'') with hs
      cases i with
      | zero =>
        simp only [List.getD_cons_zero] at hb
        rw [lineToChar_zero]
        simp only [Nat.zero_add, List.set_cons_zero, List.getD_cons_zero]
        rw [joinNl_cons_of_ne_nil _ _ (by simp), ← hs]
        show (l ++ '\n' :: s).take a ++ (l ++ '\n' :: s).drop b = _
        rw [List.take_append_of_le_length (by omega), List.drop_append_of_le_length hb]
        simp
      | succ n =>
        rw [lineToChar_append_nl hl s n]
        have h1 : l.length + 1 + lineToChar s n + a = l.length + 1 + (lineToChar s n + a) := by
          omega
        have h2 : l.length + 1 + lineToChar s n + b = l.length + 1 + (lineToChar s n + b) := by
          omega
        rw [h1, h2, removeChars_line_shift]
        have hn : n < (l2 :: ls'').length := by simpa using hi
        simp only [List.getD_cons_succ] at hb
        have := ih (fun x hx => hnf x (List.mem_cons_of_mem l hx)) n hn a b hab hb
        rw [this]
        rw [List.set_cons_succ, joinNl_cons_of_ne_nil _ _ (by simp [List.set])]
        simp

theorem insertAt_inLine {ls : List Text} (hnf : ∀ l ∈ ls, '\n' ∉ l) :
    ∀ i, i < ls.length → ∀ p, p ≤ (ls.getD i []).length → ∀ c,
      insertAt (joinNl ls) (lineToChar (joinNl ls) i + p) c =
        joinNl (ls.set i (insertAt (ls.getD i []) p c)) := by
  induction ls with
  | nil => intro i hi; simp at hi
  | cons l ls' ih =>
    intro i hi p hp c
    have hl : '\n' ∉ l := hnf l (by simp)
    cases ls' with
    | nil =>
      have hi0 : i = 0 := by simpa using hi
      subst hi0
      show insertAt (joinNl [l]) (lineToChar (joinNl [l]) 0 + p) c = _
      simp only [joinNl, lineToChar_zero, Nat.zero_add, List.set_cons_zero,
        List.getD_cons_zero]
    | cons l2 ls'' =>
      rw [joinNl_cons_of_ne_nil _ _ (by simp)]
      set s := joinNl (l2 :: ls'') with hs
      cases i with
      | zero =>
        simp only [List.getD_cons_zero] at hp
        rw [lineToChar_zero]
        simp only [Nat.zero_add, List.set_cons_zero, List.getD_cons_zero]
        rw [joinNl_cons_of_ne_nil _ _ (by simp), ← hs]
        show (l ++ '\n' :: s).take p ++ c :: (l ++ '\n' :: s).drop p = _
        rw [List.take_append_of_le_length hp, List.drop_append_of_le_length hp]
        simp [insertAt]
      | succ n =>
        rw [lineToChar_append_nl hl s n]
        have h1 : l.length + 1 + lineToChar s n + p = l.length + 1 + (lineToChar s n + p) := by
          omega
        rw [h1, insertAt_line_shift]
        have hn : n < (l2 :: ls'').length := by simpa using hi
        simp only [List.getD_cons_succ] at hp
        have := ih (fun x hx => hnf x (List.mem_cons_of_mem l hx)) n hn p hp c
        rw [this]
        rw [List.set_cons_succ, joinNl_cons_of_ne_nil _ _ (by simp [List.set])]
        simp

theorem removeChars_eraseLine {ls : List Text} (hnf : ∀ l ∈ ls, '\n' ∉ l) :
    ∀ i, i + 1 < ls.length →
      removeChars (joinNl ls) (lineToChar (joinNl ls) i) (lineToChar (joinNl ls) (i + 1)) =
        joinNl (ls.eraseIdx i) := by
  induction ls with
  | nil => intro i hi; simp at hi
  | cons l ls' ih =>
    intro i hi
    have hl : '\n' ∉ l := hnf l (by simp)
    cases ls' with
    | nil => simp at hi
    | cons l2 ls'' =>
      rw [joinNl_cons_of_ne_nil _ _ (by simp)]
      set s := joinNl (l2 :: ls'') with hs
      cases i with
      | zero =>
        rw [lineToChar_zero, lineToChar_append_nl hl s 0, lineToChar_zero]
        show removeChars (l ++ '\n' :: s) 0 (l.length + 1 + 0) = _
        simp only [removeChars, List.take_zero, List.nil_append, Nat.add_zero]
        have : l.length + 1 = l.length + 1 := rfl
        rw [show l.length + 1 = l.length + 1 from rfl, drop_append_len l ('\n' :: s) 1]
        simp [List.eraseIdx]
      | succ n =>
        rw [lineToChar_append_nl hl s n, lineToChar_append_nl hl s (n + 1),
          removeChars_line_shift]
        have hn : n + 1 < (l2 :: ls'').length := by simpa using hi
        have := ih (fun x hx => hnf x (List.mem_cons_of_mem l hx)) n hn
        rw [this]
        have hne : (l2 :: ls'').eraseIdx n ≠ [] := by
          intro hcon
          have h3 := congrArg List.length hcon
          rw [List.length_eraseIdx_of_lt (by omega)] at h3
          simp only [List.length_cons, List.length_nil] at h3 hn
          omega
        rw [List.eraseIdx_cons_succ, joinNl_cons_of_ne_nil _ _ hne]

theorem takeChars_toLineEnd {ls : List Text} (hnf : ∀ l ∈ ls, '\n' ∉ l) :
    ∀ i, i < ls.length →
      (joinNl ls).take (lineToChar (joinNl ls) i + (ls.getD i []).length) =
        joinNl (ls.take (i + 1)) := by
  induction ls with
  | nil => intro i hi; simp at hi
  | cons l ls' ih =>
    intro i hi
    have hl : '\n' ∉ l := hnf l (by simp)
    cases ls' with
    | nil =>
      have hi0 : i = 0 := by simpa using hi
      subst hi0
      simp [joinNl, lineToChar_zero]
    | cons l2 ls'' =>
      rw [joinNl_cons_of_ne_nil _ _ (by simp)]
      set s := joinNl (l2 :: ls'') with hs
      cases i with
      | zero =>
        rw [lineToChar_zero]
        simp only [Nat.zero_add, List.getD_cons_zero]
        rw [List.take_append_of_le_length (le_refl _), List.take_length]
        simp [joinNl]
      | succ n =>
        rw [lineToChar_append_nl hl s n]
        have h1 : l.length + 1 + lineToChar s n + ((l :: l2 :: ls'').getD (n + 1) []).length =
            l.length + (1 + (lineToChar s n + ((l2 :: ls'').getD n []).length)) := by
          simp only [List.getD_cons_succ]
          omega
        rw [h1, take_append_len]
        have hn : n < (l2 :: ls'').length := by simpa using hi
        have := ih (fun x hx => hnf x (List.mem_cons_of_mem l hx)) n hn
        have h2 : ('\n' :: s).take (1 + (lineToChar s n + ((l2 :: ls'').getD n []).length)) =
            '\n' :: s.take (lineToChar s n + ((l2 :: ls'').getD n []).length) := by
          rw [Nat.add_comm 1 _]
          simp [List.take_succ_cons]
        rw [h2, this]
        show l ++ '\n' :: joinNl (l2 :: List.take n ls'') =
          joinNl (l :: l2 :: List.take n ls'')
        rw [joinNl_cons_of_ne_nil l (l2 :: List.take n ls'') (by simp)]

theorem nlFree_set {ls : List Text} {x : Text} (hnf : ∀ l ∈ ls, '\n' ∉ l)
    (hx : '\n' ∉ x) (i : Nat) : ∀ l ∈ ls.set i x, '\n' ∉ l := by
  intro l hl
  rcases List.mem_or_eq_of_mem_set hl with h | h
  · exact hnf l h
  · exact h ▸ hx

theorem nlFree_eraseIdx {ls : List Text} (hnf : ∀ l ∈ ls, '\n' ∉ l) (i : Nat) :
    ∀ l ∈ ls.eraseIdx i, '\n' ∉ l :=
  fun l hl => hnf l (List.mem_of_mem_eraseIdx hl)

theorem nlFree_take {ls : List Text} (hnf : ∀ l ∈ ls, '\n' ∉ l) (i : Nat) :
    ∀ l ∈ ls.take i, '\n' ∉ l :=
  fun l hl => hnf l (List.mem_of_mem_take hl)

theorem nlFree_drop {ls : List Text} (hnf : ∀ l ∈ ls, '\n' ∉ l) (i : Nat) :
    ∀ l ∈ ls.drop i, '\n' ∉ l :=
  fun l hl => hnf l (List.mem_of_mem_drop hl)

theorem length_le_utf8Len (t : Text) : t.length ≤ utf8Len t := by
  induction t with
  | nil => simp [utf8Len]
  | cons c cs ih =>
    have hc := Char.utf8Size_pos c
    unfold utf8Len at ih ⊢
    simp only [List.map_cons, List.sum_cons, List.length_cons]
    omega

theorem utf8Len_eq_length {t : Text} (h : ∀ c ∈ t, c.utf8Size = 1) :
    utf8Len t = t.length := by
  induction t with
  | nil => rfl
  | cons c cs ih =>
    have hc := h c (List.mem_cons_self c cs)
    have ih2 := ih (fun d hd => h d (List.mem_cons_of_mem c hd))
    unfold utf8Len at ih2 ⊢
    simp only [List.map_cons, List.sum_cons, List.length_cons]
    omega

theorem mem_joinNl : ∀ (ls : List Text), ∀ l ∈ ls, ∀ c ∈ l, c ∈ joinNl ls
  | [] => by intro l hl; simp at hl
  | [m] => by
    intro l hl c hc
    simp only [List.mem_singleton] at hl
    subst hl
    simpa [joinNl] using hc
  | m :: m2 :: ms => by
    intro l hl c hc
    show c ∈ m ++ '\n' :: joinNl (m2 :: ms)
    rcases List.mem_cons.mp hl with h | h
    · subst h; exact List.mem_append_left _ hc
    · exact List.mem_append_right _
        (List.mem_cons_of_mem _ (mem_joinNl (m2 :: ms) l h c hc))

end Buf

namespace Buffer

open Buf

theorem getLine_joinNl {ls : List Text} (hnf : ∀ l ∈ ls, '\n' ∉ l) {i : Nat}
    (hi : i < ls.length) (mo : Bool) :
    getLine ⟨joinNl ls, mo⟩ i = some (ls.getD i []) := by
  have hne : ls ≠ [] := by intro h; subst h; simp at hi
  have hlt : i < lenLines (joinNl ls) := by rw [lenLines_joinNl hnf hne]; exact hi
  unfold getLine
  rw [if_pos hlt, lineSeg_joinNl hnf i hi]

theorem lineLen_joinNl {ls : List Text} (hnf : ∀ l ∈ ls, '\n' ∉ l) {i : Nat}
    (hi : i < ls.length) (mo : Bool) :
    lineLen ⟨joinNl ls, mo⟩ i = utf8Len (ls.getD i []) := by
  have hne : ls ≠ [] := by intro h; subst h; simp at hi
  have hlt : i < lenLines (joinNl ls) := by rw [lenLines_joinNl hnf hne]; exact hi
  unfold lineLen
  rw [if_pos hlt, lineSeg_joinNl hnf i hi]

theorem deleteRange_eraseLine {ls : List Text} (hnf : ∀ l ∈ ls, '\n' ∉ l) {i : Nat}
    (hi : i + 1 < ls.length) (mo : Bool) :
    deleteRange ⟨joinNl ls, mo⟩ i 0 (i + 1) 0 = ⟨joinNl (ls.eraseIdx i), true⟩ := by
  have h0 : ¬((0 : Nat) = usizeMax) := by norm_num [usizeMax]
  show (if _ ≤ _ ∧ _ ≤ _ then _ else _) = _
  rw [if_neg h0]
  have hcond : lineToChar (joinNl ls) i + 0 ≤ lineToChar (joinNl ls) (i + 1) + 0 ∧
      lineToChar (joinNl ls) (i + 1) + 0 ≤ lenChars (joinNl ls) := by
    constructor
    · simpa using lineToChar_mono (joinNl ls) (Nat.le_succ i)
    · simpa [lenChars] using lineToChar_le_length (joinNl ls) (i + 1)
  rw [if_pos hcond]
  simp only [Nat.add_zero]
  rw [removeChars_eraseLine hnf i hi]

theorem deleteRange_clearLine {ls : List Text} (hnf : ∀ l ∈ ls, '\n' ∉ l) {i : Nat}
    (hi : i < ls.length) (hmax : (ls.getD i []).length ≠ usizeMax) (mo : Bool) :
    deleteRange ⟨joinNl ls, mo⟩ i 0 i ((ls.getD i []).length) =
      ⟨joinNl (ls.set i []), true⟩ := by
  show (if _ ≤ _ ∧ _ ≤ _ then _ else _) = _
  rw [if_neg hmax]
  have hcond : lineToChar (joinNl ls) i + 0 ≤
        lineToChar (joinNl ls) i + (ls.getD i []).length ∧
      lineToChar (joinNl ls) i + (ls.getD i []).length ≤ lenChars (joinNl ls) := by
    constructor
    · omega
    · simpa [lenChars] using lineToChar_add_len_le hnf i hi
  rw [if_pos hcond]
  have := removeChars_inLine hnf i hi 0 (ls.getD i []).length (Nat.zero_le _) (le_refl _)
  simp only [List.take_zero, List.drop_length, List.nil_append, List.append_nil] at this
  simp only [Nat.add_zero] at this ⊢
  rw [this]

theorem deleteRange_lastLine {ls : List Text} (hnf : ∀ l ∈ ls, '\n' ∉ l) {i : Nat}
    (hi : i + 1 = ls.length) (hpos : 0 < i) (hmax : (ls.getD i []).length ≠ usizeMax)
    (mo : Bool) :
    deleteRange ⟨joinNl ls, mo⟩ (i - 1) ((ls.getD (i - 1) []).length) i
      ((ls.getD i []).length) = ⟨joinNl (ls.take i), true⟩ := by
  show (if _ ≤ _ ∧ _ ≤ _ then _ else _) = _
  rw [if_neg hmax]
  have hilt : i < ls.length := by omega
  have hprev : i - 1 < ls.length := by omega
  have hlast := lineToChar_add_len_last hnf i hi
  have hle := lineToChar_add_len_le hnf (i - 1) hprev
  have hcond : lineToChar (joinNl ls) (i - 1) + (ls.getD (i - 1) []).length ≤
        lineToChar (joinNl ls) i + (ls.getD i []).length ∧
      lineToChar (joinNl ls) i + (ls.getD i []).length ≤ lenChars (joinNl ls) := by
    constructor
    · rw [hlast]; exact hle
    · rw [hlast]; exact le_refl _
  rw [if_pos hcond]
  have htake := takeChars_toLineEnd hnf (i - 1) hprev
  rw [show i - 1 + 1 = i from by omega] at htake
  congr 1
  rw [removeChars, hlast, List.drop_length, List.append_nil, htake]

theorem insertChar_joinNl {ls : List Text} (hnf : ∀ l ∈ ls, '\n' ∉ l) {i col : Nat}
    (hi : i < ls.length) (hcol : col ≤ (ls.getD i []).length) (ch : Char) (mo : Bool) :
    insertChar ⟨joinNl ls, mo⟩ i col ch =
      ⟨joinNl (ls.set i (insertAt (ls.getD i []) col ch)), true⟩ := by
  have hne : ls ≠ [] := by intro h; subst h; simp at hi
  have hlt : i < lenLines (joinNl ls) := by rw [lenLines_joinNl hnf hne]; exact hi
  unfold insertChar
  rw [if_pos hlt]
  have hll : lineLen ⟨joinNl ls, mo⟩ i = utf8Len (ls.getD i []) := lineLen_joinNl hnf hi mo
  have hmin : min col (utf8Len (ls.getD i [])) = col :=
    Nat.min_eq_left (le_trans hcol (length_le_utf8Len _))
  simp only [hll, hmin]
  rw [insertAt_inLine hnf i hi col hcol ch]

end Buffer

/-- C9. `Buffer::get_line` and `Buffer::line_len` are total: at or past
`line_count()` they return `None` / `0`; in range, `get_line` returns
`Some` of the line's text (the corresponding entry of the rope's line
decomposition, which carries no newline) and `line_len` is that text's
length in Rust's `String::len` sense — its UTF-8 byte length. -/
theorem getLine_lineLen_total (t : Text) (mo : Bool) (i : Nat) :
    (Buffer.lineCount ⟨t, mo⟩ ≤ i →
      Buffer.getLine ⟨t, mo⟩ i = none ∧ Buffer.lineLen ⟨t, mo⟩ i = 0) ∧
    (i < Buffer.lineCount ⟨t, mo⟩ →
      Buffer.getLine ⟨t, mo⟩ i = some ((Buf.splitNl t).getD i []) ∧
      '\n' ∉ (Buf.splitNl t).getD i [] ∧
      Buffer.lineLen ⟨t, mo⟩ i = Buf.utf8Len ((Buf.splitNl t).getD i [])) := by
  constructor
  · intro hge
    have hnot : ¬(i < Buf.lenLines t) := by
      simp only [Buffer.lineCount] at hge; omega
    constructor
    · unfold Buffer.getLine; rw [if_neg hnot]
    · unfold Buffer.lineLen; rw [if_neg hnot]
  · intro hlt
    have hi : i < (Buf.splitNl t).length := by
      rw [Buf.length_splitNl]
      simpa [Buffer.lineCount, Buf.lenLines] using hlt
    have hg := Buffer.getLine_joinNl (Buf.nlFree_splitNl t) hi mo
    have hl := Buffer.lineLen_joinNl (Buf.nlFree_splitNl t) hi mo
    rw [Buf.joinNl_splitNl] at hg hl
    refine ⟨hg, ?_, hl⟩
    have hmem : (Buf.splitNl t).getD i [] ∈ Buf.splitNl t := by
      rw [List.getD_eq_getElem _ _ hi]
      exact List.getElem_mem hi
    exact Buf.nlFree_splitNl t _ hmem

/-- Witness for C9 at the concrete buffer `"ab\ncd"`, one in-range and
one out-of-range index. -/
theorem getLine_lineLen_total_witness :
    Buffer.getLine ⟨"ab\ncd".toList, false⟩ 1 = some "cd".toList ∧
    Buffer.lineLen ⟨"ab\ncd".toList, false⟩ 1 = 2 ∧
    Buffer.getLine ⟨"ab\ncd".toList, false⟩ 9 = none ∧
    Buffer.lineLen ⟨"ab\ncd".toList, false⟩ 9 = 0 := by
  have hin := (getLine_lineLen_total "ab\ncd".toList false 1).2 (by decide)
  have hout := (getLine_lineLen_total "ab\ncd".toList false 9).1 (by decide)
  refine ⟨?_, ?_, hout.1, hout.2⟩
  · rw [hin.1]; decide
  · rw [hin.2.2]; decide

/-- C8. `RegisterManager::set` honors the black-hole register `'_'` and
the read-only registers `'%'`, `'#'`, `':'`, `'.'` as complete no-ops
(the whole bank, unnamed register included, is unchanged), while for any
other explicitly named non-clipboard register `r` it stores the content
in both the unnamed register and the slot of `r`, leaving every other
named slot and every special slot untouched. -/
theorem registerManager_set_spec (m : RegisterManager) (c : RegisterContent) (r : Char) :
    (r = '_' ∨ r = '%' ∨ r = '#' ∨ r = ':' ∨ r = '.' → m.set (some r) c = m) ∧
    (¬(r = '_' ∨ r = '%' ∨ r = '#' ∨ r = ':' ∨ r = '.' ∨ r = '+' ∨ r = '*') →
      (m.set (some r) c).unnamed = c ∧
      (m.set (some r) c).registers r = some c ∧
      (∀ x, x ≠ r → (m.set (some r) c).registers x = m.registers x) ∧
      (m.set (some r) c).lastYank = m.lastYank ∧
      (m.set (some r) c).lastDelete = m.lastDelete ∧
      (m.set (some r) c).clipboard = m.clipboard ∧
      (m.set (some r) c).filename = m.filename ∧
      (m.set (some r) c).lastCommand = m.lastCommand ∧
      (m.set (some r) c).lastInserted = m.lastInserted) := by
  constructor
  · intro h
    unfold RegisterManager.set
    rcases h with h | h | h | h | h <;> subst h <;> simp
  · intro h
    push_neg at h
    obtain ⟨h1, h2, h3, h4, h5, h6, h7⟩ := h
    have hset : m.set (some r) c =
        { m with unnamed := c,
                 registers := fun x => if x = r then some c else m.registers x } := by
      simp [RegisterManager.set, h1, h2, h3, h4, h5, h6, h7]
    rw [hset]
    refine ⟨rfl, by simp, ?_, rfl, rfl, rfl, rfl, rfl, rfl⟩
    intro x hx
    simp [hx]

/-- Witness for C8: setting register `'a'` stores in unnamed and `'a'`
and leaves register `'b'` alone; setting the black hole changes
nothing. -/
theorem registerManager_set_spec_witness :
    (RegisterManager.new.set (some '_') (.char "x".toList) = RegisterManager.new) ∧
    (RegisterManager.new.set (some 'a') (.char "x".toList)).unnamed = .char "x".toList ∧
    (RegisterManager.new.set (some 'a') (.char "x".toList)).registers 'a' =
      some (.char "x".toList) ∧
    (RegisterManager.new.set (some 'a') (.char "x".toList)).registers 'b' =
      RegisterManager.new.registers 'b' := by
  have h1 := (registerManager_set_spec RegisterManager.new (.char "x".toList) '_').1
    (by decide)
  have h2 := (registerManager_set_spec RegisterManager.new (.char "x".toList) 'a').2
    (by decide)
  exact ⟨h1, h2.1, h2.2.1, h2.2.2.1 'b' (by decide)⟩

theorem not_prefix_nil_cond (pat : Text) : ¬(pat.isPrefixOf ([] : Text) ∧ pat ≠ []) := by
  rintro ⟨h1, h2⟩
  cases pat with
  | nil => exact h2 rfl
  | cons a as => simp [List.isPrefixOf] at h1

theorem prefix_cond_length {pat s : Text} (h : pat.isPrefixOf s ∧ pat ≠ []) :
    1 ≤ pat.length ∧ pat.length ≤ s.length :=
  ⟨List.length_pos.mpr h.2, (List.isPrefixOf_iff_prefix.mp h.1).length_le⟩

theorem scanReplace_empty (pat rep : Text) (f : Nat) : scanReplace pat rep f [] = [] := by
  cases f with
  | zero => rfl
  | succ g =>
    show (if _ ∧ _ then _ else _) = _
    rw [if_neg (not_prefix_nil_cond pat)]

theorem scanReplace_fuel_irrel (pat rep : Text) :
    ∀ (f1 : Nat) (s : Text) (f2 : Nat), s.length ≤ f1 → s.length ≤ f2 →
      scanReplace pat rep f1 s = scanReplace pat rep f2 s := by
  intro f1
  induction f1 with
  | zero =>
    intro s f2 h1 _
    have : s = [] := List.length_eq_zero.mp (Nat.le_zero.mp h1)
    subst this
    rw [scanReplace_empty, scanReplace_empty]
  | succ g1 ih =>
    intro s f2 h1 h2
    by_cases hcond : pat.isPrefixOf s ∧ pat ≠ []
    · obtain ⟨hp1, hp2⟩ := prefix_cond_length hcond
      cases f2 with
      | zero =>
        have : s = [] := List.length_eq_zero.mp (Nat.le_zero.mp h2)
        subst this
        exact absurd hcond (not_prefix_nil_cond pat)
      | succ g2 =>
        show (if _ ∧ _ then _ else _) = (if _ ∧ _ then _ else _)
        rw [if_pos hcond, if_pos hcond]
        congr 1
        exact ih (s.drop pat.length) g2 (by simp only [List.length_drop]; omega)
          (by simp only [List.length_drop]; omega)
    · cases s with
      | nil => rw [scanReplace_empty, scanReplace_empty]
      | cons c cs =>
        cases f2 with
        | zero => simp at h2
        | succ g2 =>
          show (if _ ∧ _ then _ else _) = (if _ ∧ _ then _ else _)
          rw [if_neg hcond, if_neg hcond]
          show c :: scanReplace pat rep g1 cs = c :: scanReplace pat rep g2 cs
          congr 1
          exact ih cs g2 (by simp only [List.length_cons] at h1; omega)
            (by simp only [List.length_cons] at h2; omega)

theorem replaceAll_pos {pat rep s : Text} (h : pat.isPrefixOf s ∧ pat ≠ []) :
    replaceAll pat rep s = rep ++ replaceAll pat rep (s.drop pat.length) := by
  obtain ⟨hp1, hp2⟩ := prefix_cond_length h
  show scanReplace pat rep s.length s = _
  cases hs : s.length with
  | zero =>
    have : s = [] := List.length_eq_zero.mp (by omega)
    subst this
    exact absurd h (not_prefix_nil_cond pat)
  | succ k =>
    show (if _ ∧ _ then _ else _) = _
    rw [if_pos h]
    congr 1
    exact scanReplace_fuel_irrel pat rep k (s.drop pat.length) (s.drop pat.length).length
      (by simp only [List.length_drop]; omega) (le_refl _)

theorem replaceAll_nil (pat rep : Text) : replaceAll pat rep [] = [] := rfl

theorem replaceAll_neg_cons {pat : Text} (rep : Text) {c : Char} {cs : Text}
    (h : ¬(pat.isPrefixOf (c :: cs) ∧ pat ≠ [])) :
    replaceAll pat rep (c :: cs) = c :: replaceAll pat rep cs := by
  show (if _ ∧ _ then _ else _) = _
  rw [if_neg h]
  rfl

theorem scanCount_empty (pat : Text) (f : Nat) : scanCount pat f [] = 0 := by
  cases f with
  | zero => rfl
  | succ g =>
    show (if _ ∧ _ then _ else _) = _
    rw [if_neg (not_prefix_nil_cond pat)]

theorem scanCount_fuel_irrel (pat : Text) :
    ∀ (f1 : Nat) (s : Text) (f2 : Nat), s.length ≤ f1 → s.length ≤ f2 →
      scanCount pat f1 s = scanCount pat f2 s := by
  intro f1
  induction f1 with
  | zero =>
    intro s f2 h1 _
    have : s = [] := List.length_eq_zero.mp (Nat.le_zero.mp h1)
    subst this
    rw [scanCount_empty, scanCount_empty]
  | succ g1 ih =>
    intro s f2 h1 h2
    by_cases hcond : pat.isPrefixOf s ∧ pat ≠ []
    · obtain ⟨hp1, hp2⟩ := prefix_cond_length hcond
      cases f2 with
      | zero =>
        have : s = [] := List.length_eq_zero.mp (Nat.le_zero.mp h2)
        subst this
        exact absurd hcond (not_prefix_nil_cond pat)
      | succ g2 =>
        show (if _ ∧ _ then _ else _) = (if _ ∧ _ then _ else _)
        rw [if_pos hcond, if_pos hcond]
        congr 1
        exact ih (s.drop pat.length) g2 (by simp only [List.length_drop]; omega)
          (by simp only [List.length_drop]; omega)
    · cases s with
      | nil => rw [scanCount_empty, scanCount_empty]
      | cons c cs =>
        cases f2 with
        | zero => simp at h2
        | succ g2 =>
          show (if _ ∧ _ then _ else _) = (if _ ∧ _ then _ else _)
          rw [if_neg hcond, if_neg hcond]
          exact ih cs g2 (by simp only [List.length_cons] at h1; omega)
            (by simp only [List.length_cons] at h2; omega)

theorem countOccs_pos {pat s : Text} (h : pat.isPrefixOf s ∧ pat ≠ []) :
    countOccs pat s = 1 + countOccs pat (s.drop pat.length) := by
  obtain ⟨hp1, hp2⟩ := prefix_cond_length h
  show scanCount pat s.length s = _
  cases hs : s.length with
  | zero =>
    have : s = [] := List.length_eq_zero.mp (by omega)
    subst this
    exact absurd h (not_prefix_nil_cond pat)
  | succ k =>
    show (if _ ∧ _ then _ else _) = _
    rw [if_pos h]
    congr 1
    exact scanCount_fuel_irrel pat k (s.drop pat.length) (s.drop pat.length).length
      (by simp only [List.length_drop]; omega) (le_refl _)

theorem countOccs_nil (pat : Text) : countOccs pat [] = 0 := rfl

theorem countOccs_neg_cons {pat : Text} {c : Char} {cs : Text}
    (h : ¬(pat.isPrefixOf (c :: cs) ∧ pat ≠ [])) :
    countOccs pat (c :: cs) = countOccs pat cs := by
  show (if _ ∧ _ then _ else _) = _
  rw [if_neg h]
  rfl

theorem replaceAll_id_of_no_occ (pat rep : Text) :
    ∀ (n : Nat) (s : Text), s.length ≤ n → countOccs pat s = 0 →
      replaceAll pat rep s = s := by
  intro n
  induction n with
  | zero =>
    intro s hs _
    have : s = [] := List.length_eq_zero.mp (Nat.le_zero.mp hs)
    subst this
    exact replaceAll_nil pat rep
  | succ n ih =>
    intro s hs h0
    by_cases hcond : pat.isPrefixOf s ∧ pat ≠ []
    · rw [countOccs_pos hcond] at h0
      omega
    · cases s with
      | nil => exact replaceAll_nil pat rep
      | cons c cs =>
        rw [countOccs_neg_cons hcond] at h0
        rw [replaceAll_neg_cons rep hcond]
        rw [ih cs (by simpa using Nat.lt_succ_iff.mp (Nat.lt_of_lt_of_le (by simp) hs)) h0]

theorem mem_replaceAll (pat rep : Text) :
    ∀ (n : Nat) (s : Text), s.length ≤ n → ∀ c ∈ replaceAll pat rep s, c ∈ rep ∨ c ∈ s := by
  intro n
  induction n with
  | zero =>
    intro s hs c hc
    have : s = [] := List.length_eq_zero.mp (Nat.le_zero.mp hs)
    subst this
    rw [replaceAll_nil] at hc
    simp at hc
  | succ n ih =>
    intro s hs c hc
    by_cases hcond : pat.isPrefixOf s ∧ pat ≠ []
    · rw [replaceAll_pos hcond] at hc
      rcases List.mem_append.mp hc with h | h
      · exact Or.inl h
      · have hlen : (s.drop pat.length).length ≤ n := by
          have hp : 0 < pat.length := List.length_pos.mpr hcond.2
          simp only [List.length_drop]
          omega
        rcases ih (s.drop pat.length) hlen c h with h2 | h2
        · exact Or.inl h2
        · exact Or.inr (List.mem_of_mem_drop h2)
    · cases s with
      | nil => rw [replaceAll_nil] at hc; simp at hc
      | cons a cs =>
        rw [replaceAll_neg_cons rep hcond] at hc
        rcases List.mem_cons.mp hc with h | h
        · exact Or.inr (h ▸ List.mem_cons_self a cs)
        · have hlen : cs.length ≤ n := by
            simp only [List.length_cons] at hs
            omega
          rcases ih cs hlen c h with h2 | h2
          · exact Or.inl h2
          · exact Or.inr (List.mem_cons_of_mem a h2)

theorem not_prefix_cons_of_head_ne {a b : Char} (as bs : Text) (h : a ≠ b) :
    (a :: as).isPrefixOf (b :: bs) = false := by
  simp [List.isPrefixOf, h]

theorem countOccs_cons_of_head_ne {a b : Char} (as : Text) (bs : Text) (h : a ≠ b) :
    countOccs (a :: as) (b :: bs) = countOccs (a :: as) bs := by
  apply countOccs_neg_cons
  rintro ⟨h1, _⟩
  rw [not_prefix_cons_of_head_ne as bs h] at h1
  exact Bool.false_ne_true h1

theorem replaceAll_foo_head {s : Text} {c : Char}
    (h : (replaceAll fooPat barRep s).head? = some c) : c = 'b' ∨ s.head? = some c := by
  by_cases hcond : fooPat.isPrefixOf s ∧ fooPat ≠ []
  · rw [replaceAll_pos hcond] at h
    have hb : (barRep ++ replaceAll fooPat barRep (s.drop fooPat.length)).head? =
        some 'b' := rfl
    rw [hb] at h
    injection h with hh
    exact Or.inl hh.symm
  · cases s with
    | nil => rw [replaceAll_nil] at h; simp at h
    | cons a cs =>
      rw [replaceAll_neg_cons barRep hcond] at h
      simp only [List.head?_cons, Option.some.injEq] at h
      exact Or.inr (by simp [← h])

theorem single_prefix_head {d : Char} {x : Text} (h : ([d] : Text).isPrefixOf x = true) :
    x.head? = some d := by
  cases x with
  | nil => simp [List.isPrefixOf] at h
  | cons y ys =>
    simp only [List.isPrefixOf, Bool.and_eq_true, beq_iff_eq] at h
    simp [h.1]

theorem oo_prefix_replaceAll {s : Text}
    (h : (['o', 'o'] : Text).isPrefixOf (replaceAll fooPat barRep s) = true) :
    (['o', 'o'] : Text).isPrefixOf s = true := by
  by_cases hcond : fooPat.isPrefixOf s ∧ fooPat ≠ []
  · rw [replaceAll_pos hcond] at h
    have : (['o', 'o'] : Text).isPrefixOf ('b' :: ('a' :: 'r' :: replaceAll fooPat barRep
        (s.drop fooPat.length))) = false := not_prefix_cons_of_head_ne _ _ (by decide)
    rw [show (barRep ++ replaceAll fooPat barRep (s.drop fooPat.length)) =
      'b' :: 'a' :: 'r' :: replaceAll fooPat barRep (s.drop fooPat.length) from rfl] at h
    rw [this] at h
    exact absurd h (by simp)
  · cases s with
    | nil => rw [replaceAll_nil] at h; simp [List.isPrefixOf] at h
    | cons c cs =>
      rw [replaceAll_neg_cons barRep hcond] at h
      simp only [List.isPrefixOf, Bool.and_eq_true, beq_iff_eq] at h
      obtain ⟨hc, h2⟩ := h
      have hhead := single_prefix_head h2
      rcases replaceAll_foo_head hhead with hb | hb
      · exact absurd hb (by decide)
      · cases cs with
        | nil => simp at hb
        | cons d ds =>
          simp only [List.head?_cons, Option.some.injEq] at hb
          subst hc
          subst hb
          simp [List.isPrefixOf]

theorem fooPat_not_prefix_replaceAll (s : Text) :
    fooPat.isPrefixOf (replaceAll fooPat barRep s) = false := by
  by_cases hcond : fooPat.isPrefixOf s ∧ fooPat ≠ []
  · rw [replaceAll_pos hcond]
    exact not_prefix_cons_of_head_ne _ _ (by decide)
  · cases s with
    | nil => rw [replaceAll_nil]; rfl
    | cons c cs =>
      rw [replaceAll_neg_cons barRep hcond]
      by_contra hne
      have htrue : fooPat.isPrefixOf (c :: replaceAll fooPat barRep cs) = true := by
        cases hb : fooPat.isPrefixOf (c :: replaceAll fooPat barRep cs)
        · exact absurd hb hne
        · rfl
      have hsplit : c = 'f' ∧ (['o', 'o'] : Text).isPrefixOf (replaceAll fooPat barRep cs)
          = true := by
        have : fooPat = 'f' :: ['o', 'o'] := rfl
        rw [this] at htrue
        simp only [List.isPrefixOf, Bool.and_eq_true, beq_iff_eq] at htrue
        exact ⟨htrue.1.symm, htrue.2⟩
      have hoo := oo_prefix_replaceAll hsplit.2
      apply hcond
      constructor
      · obtain ⟨hc, _⟩ := hsplit
        subst hc
        show ('f' :: ['o', 'o'] : Text).isPrefixOf ('f' :: cs) = true
        simp [List.isPrefixOf, hoo]
      · decide

theorem countOccs_foo_replaceAll_aux :
    ∀ (n : Nat) (s : Text), s.length ≤ n →
      countOccs fooPat (replaceAll fooPat barRep s) = 0 := by
  intro n
  induction n with
  | zero =>
    intro s hs
    have : s = [] := List.length_eq_zero.mp (Nat.le_zero.mp hs)
    subst this
    rw [replaceAll_nil, countOccs_nil]
  | succ n ih =>
    intro s hs
    by_cases hcond : fooPat.isPrefixOf s ∧ fooPat ≠ []
    · rw [replaceAll_pos hcond]
      have hlen3 : 3 ≤ s.length := by
        have := (List.isPrefixOf_iff_prefix.mp hcond.1).length_le
        simpa [fooPat] using this
      show countOccs ('f' :: ['o', 'o'])
        ('b' :: 'a' :: 'r' :: replaceAll fooPat barRep (s.drop fooPat.length)) = 0
      rw [countOccs_cons_of_head_ne _ _ (by decide),
        countOccs_cons_of_head_ne _ _ (by decide),
        countOccs_cons_of_head_ne _ _ (by decide)]
      show countOccs fooPat (replaceAll fooPat barRep (s.drop fooPat.length)) = 0
      exact ih _ (by simp only [List.length_drop]; simp [fooPat]; omega)
    · cases s with
      | nil => rw [replaceAll_nil, countOccs_nil]
      | cons c cs =>
        rw [replaceAll_neg_cons barRep hcond]
        have hpre := fooPat_not_prefix_replaceAll (c :: cs)
        rw [replaceAll_neg_cons barRep hcond] at hpre
        rw [countOccs_neg_cons (by rw [hpre]; rintro ⟨h1, _⟩; exact Bool.false_ne_true h1)]
        exact ih cs (by simp only [List.length_cons] at hs; omega)

/-- After `:%s/foo/bar/g`'s per-line replacement, no occurrence of
`"foo"` remains. -/
theorem countOccs_foo_replaceAll (s : Text) :
    countOccs fooPat (replaceAll fooPat barRep s) = 0 :=
  countOccs_foo_replaceAll_aux s.length s (le_refl _)

theorem length_replaceAll_foo_aux :
    ∀ (n : Nat) (s : Text), s.length ≤ n →
      (replaceAll fooPat barRep s).length = s.length := by
  intro n
  induction n with
  | zero =>
    intro s hs
    have : s = [] := List.length_eq_zero.mp (Nat.le_zero.mp hs)
    subst this
    rw [replaceAll_nil]
  | succ n ih =>
    intro s hs
    by_cases hcond : fooPat.isPrefixOf s ∧ fooPat ≠ []
    · rw [replaceAll_pos hcond]
      have hlen3 : 3 ≤ s.length := by
        have := (List.isPrefixOf_iff_prefix.mp hcond.1).length_le
        simpa [fooPat] using this
      have hdrop : (s.drop fooPat.length).length ≤ n := by
        simp only [List.length_drop]
        simp [fooPat]
        omega
      rw [List.length_append, ih _ hdrop]
      simp only [List.length_drop]
      simp [barRep, fooPat]
      omega
    · cases s with
      | nil => rw [replaceAll_nil]
      | cons c cs =>
        rw [replaceAll_neg_cons barRep hcond]
        simp only [List.length_cons]
        rw [ih cs (by simp only [List.length_cons] at hs; omega)]

theorem length_replaceAll_foo (s : Text) :
    (replaceAll fooPat barRep s).length = s.length :=
  length_replaceAll_foo_aux s.length s (le_refl _)

theorem nlFree_replaceAll_foo {s : Text} (h : '\n' ∉ s) :
    '\n' ∉ replaceAll fooPat barRep s := by
  intro hmem
  rcases mem_replaceAll fooPat barRep s.length s (le_refl _) '\n' hmem with hb | hs
  · revert hb; decide
  · exact h hs

theorem list_set_getD_self {ls : List Text} {i : Nat} (hi : i < ls.length) (x : Text) :
    (ls.set i x).getD i [] = x := by
  rw [List.getD_eq_getElem _ _ (by simpa using hi)]
  simp [List.getElem_set_self]

theorem list_set_self {ls : List Text} {i : Nat} (hi : i < ls.length) :
    ls.set i (ls.getD i []) = ls := by
  rw [List.getD_eq_getElem _ _ hi]
  apply List.ext_getElem
  · simp
  · intro j h1 h2
    by_cases hj : j = i
    · subst hj; simp
    · rw [List.getElem_set_of_ne (fun hh => hj hh.symm)]

theorem insertAt_end (l : Text) (c : Char) : Buf.insertAt l l.length c = l ++ [c] := by
  simp [Buf.insertAt]

theorem insert_enumFrom_fold {t : Text} (hnlt : '\n' ∉ t) :
    ∀ (ls : List Text), (∀ l ∈ ls, '\n' ∉ l) → ∀ (i : Nat), i < ls.length →
      ((t.enumFrom (ls.getD i []).length).foldl
        (fun (b : Buffer) (p : Nat × Char) => b.insertChar i p.1 p.2)
        (⟨Buf.joinNl ls, true⟩ : Buffer)) =
      (⟨Buf.joinNl (ls.set i (ls.getD i [] ++ t)), true⟩ : Buffer) := by
  induction t with
  | nil =>
    intro ls hnf i hi
    simp only [List.enumFrom, List.foldl_nil, List.append_nil]
    rw [list_set_self hi]
  | cons c rest ih =>
    intro ls hnf i hi
    have hc : c ≠ '\n' := fun hcc => hnlt (by simp [hcc])
    have hrest : '\n' ∉ rest := fun hm => hnlt (List.mem_cons_of_mem c hm)
    simp only [List.enumFrom, List.foldl_cons]
    have hstep : Buffer.insertChar ⟨Buf.joinNl ls, true⟩ i (ls.getD i []).length c =
        ⟨Buf.joinNl (ls.set i (ls.getD i [] ++ [c])), true⟩ := by
      rw [Buffer.insertChar_joinNl hnf hi (le_refl _), insertAt_end]
    rw [hstep]
    have hnf2 : ∀ l ∈ ls.set i (ls.getD i [] ++ [c]), '\n' ∉ l := by
      apply Buf.nlFree_set hnf
      intro hm
      rcases List.mem_append.mp hm with hm | hm
      · have hmem : ls.getD i [] ∈ ls := by
          rw [List.getD_eq_getElem _ _ hi]; exact List.getElem_mem hi
        exact hnf _ hmem hm
      · simp at hm; exact hc hm.symm
    have hi2 : i < (ls.set i (ls.getD i [] ++ [c])).length := by simpa using hi
    have hgd : ((ls.set i (ls.getD i [] ++ [c])).getD i []).length =
        (ls.getD i []).length + 1 := by
      rw [list_set_getD_self hi]
      simp
    have := ih hrest (ls.set i (ls.getD i [] ++ [c])) hnf2 i hi2
    rw [hgd] at this
    rw [this, list_set_getD_self hi, List.set_set]
    congr 2
    simp

theorem executeSubstituteLine_joinNl {ls : List Text} (hnf : ∀ l ∈ ls, '\n' ∉ l)
    {i : Nat} (hi : i < ls.length) (hbig : (ls.getD i []).length < usizeMax)
    (hasc : ∀ c ∈ ls.getD i [], c.utf8Size = 1)
    (cl cc cnt : Nat) (msg : Option Text) (regs : RegisterManager) (mo : Bool) :
    ∃ f : Bool,
      executeSubstituteLine ⟨⟨Buf.joinNl ls, mo⟩, cl, cc, cnt, msg, regs⟩ i fooPat barRep
        true =
      (⟨⟨Buf.joinNl (ls.set i (replaceAll fooPat barRep (ls.getD i []))), f⟩,
        cl, cc, cnt, msg, regs⟩, countOccs fooPat (ls.getD i [])) := by
  have hmem : ls.getD i [] ∈ ls := by
    rw [List.getD_eq_getElem _ _ hi]; exact List.getElem_mem hi
  unfold executeSubstituteLine
  rw [Buffer.getLine_joinNl hnf hi mo]
  simp only [if_true, gt_iff_lt]
  by_cases hpos : 0 < countOccs fooPat (ls.getD i [])
  · refine ⟨true, ?_⟩
    rw [if_pos hpos]
    rw [Buffer.lineLen_joinNl hnf hi mo, Buf.utf8Len_eq_length hasc]
    rw [Buffer.deleteRange_clearLine hnf hi (Nat.ne_of_lt hbig) mo]
    have hnf0 : ∀ l ∈ ls.set i [], '\n' ∉ l := Buf.nlFree_set hnf (by simp) i
    have hi0 : i < (ls.set i []).length := by simpa using hi
    have hnlt : '\n' ∉ replaceAll fooPat barRep (ls.getD i []) :=
      nlFree_replaceAll_foo (hnf _ hmem)
    have hfold := insert_enumFrom_fold hnlt (ls.set i []) hnf0 i hi0
    rw [list_set_getD_self hi] at hfold
    simp only [List.length_nil] at hfold
    show (_, _) = _
    rw [show (replaceAll fooPat barRep (ls.getD i [])).enum =
      (replaceAll fooPat barRep (ls.getD i [])).enumFrom 0 from rfl]
    rw [hfold, List.set_set]
    simp
  · refine ⟨mo, ?_⟩
    rw [if_neg hpos]
    have h0 : countOccs fooPat (ls.getD i []) = 0 := by omega
    rw [replaceAll_id_of_no_occ fooPat barRep (ls.getD i []).length _ (le_refl _) h0,
      list_set_self hi]

theorem list_set_append_left {α : Type} (A B : List α) (x : α) (k : Nat) :
    (A ++ B).set (A.length + k) x = A ++ B.set k x := by
  induction A with
  | nil => simp
  | cons a as ih => simp [List.set, ih, Nat.succ_add]

theorem list_set_append_at {α : Type} (A B : List α) (x : α) (j : Nat)
    (h : j = A.length) : (A ++ B).set j x = A ++ B.set 0 x := by
  subst h
  simpa using list_set_append_left A B x 0

theorem substFold {ls : List Text} (hnf : ∀ l ∈ ls, '\n' ∉ l)
    (hbig : ∀ l ∈ ls, l.length < usizeMax)
    (hasc : ∀ l ∈ ls, ∀ c ∈ l, c.utf8Size = 1)
    (cl cc cnt : Nat) (msg : Option Text) (regs : RegisterManager) :
    ∀ (m j : Nat), j + m = ls.length → ∀ (f : Bool) (acc : Nat),
      ∃ f2 : Bool,
      (List.range' j m).foldl (substituteFoldStep fooPat barRep true)
        (⟨⟨Buf.joinNl ((ls.take j).map (replaceAll fooPat barRep) ++ ls.drop j), f⟩,
          cl, cc, cnt, msg, regs⟩, acc) =
      (⟨⟨Buf.joinNl (ls.map (replaceAll fooPat barRep)), f2⟩, cl, cc, cnt, msg, regs⟩,
        acc + ((ls.drop j).map (countOccs fooPat)).sum) := by
  intro m
  induction m with
  | zero =>
    intro j hj f acc
    refine ⟨f, ?_⟩
    have hj' : j = ls.length := by omega
    subst hj'
    simp [List.range', List.take_of_length_le (le_refl ls.length),
      List.drop_of_length_le (le_refl ls.length)]
  | succ m ih =>
    intro j hj f acc
    have hjlt : j < ls.length := by omega
    have hAlen : ((ls.take j).map (replaceAll fooPat barRep)).length = j := by
      simp [List.length_take]
      omega
    have hdropcons : ls.drop j = ls[j] :: ls.drop (j + 1) := List.drop_eq_getElem_cons hjlt
    have hgetd : ls.getD j [] = ls[j] := List.getD_eq_getElem ls [] hjlt
    set cur : List Text := (ls.take j).map (replaceAll fooPat barRep) ++ ls.drop j with hcur
    have hnfcur : ∀ l ∈ cur, '\n' ∉ l := by
      intro l hl
      rcases List.mem_append.mp hl with h | h
      · obtain ⟨y, hy, hyl⟩ := List.mem_map.mp h
        exact hyl ▸ nlFree_replaceAll_foo (hnf y (List.mem_of_mem_take hy))
      · exact hnf l (List.mem_of_mem_drop h)
    have hlencur : cur.length = ls.length := by
      simp [hcur, List.length_take]
      omega
    have hjcur : j < cur.length := by omega
    have hgd : cur.getD j [] = ls.getD j [] := by
      rw [hcur, List.getD_append_right _ _ _ _ hAlen.le]
      rw [hAlen, Nat.sub_self, hdropcons]
      simp [hgetd]
    have hbigj : (cur.getD j []).length < usizeMax := by
      rw [hgd, hgetd]
      exact hbig _ (List.getElem_mem hjlt)
    have hascj : ∀ c ∈ cur.getD j [], c.utf8Size = 1 := by
      rw [hgd, hgetd]
      exact hasc _ (List.getElem_mem hjlt)
    obtain ⟨f1, hstep⟩ := executeSubstituteLine_joinNl hnfcur hjcur hbigj hascj cl cc cnt
      msg regs f
    rw [List.range'_succ j m 1, List.foldl_cons]
    have happ : substituteFoldStep fooPat barRep true
        (⟨⟨Buf.joinNl cur, f⟩, cl, cc, cnt, msg, regs⟩, acc) j =
        (⟨⟨Buf.joinNl (cur.set j (replaceAll fooPat barRep (cur.getD j []))), f1⟩,
          cl, cc, cnt, msg, regs⟩, acc + countOccs fooPat (cur.getD j [])) := by
      unfold substituteFoldStep
      rw [hstep]
    rw [happ, hgd]
    have hseteq : cur.set j (replaceAll fooPat barRep (ls.getD j [])) =
        (ls.take (j + 1)).map (replaceAll fooPat barRep) ++ ls.drop (j + 1) := by
      rw [hcur]
      rw [list_set_append_at _ _ _ _ hAlen.symm]
      rw [hdropcons]
      simp only [List.set_cons_zero]
      rw [List.take_succ]
      have hje : ls[j]? = some ls[j] := List.getElem?_eq_getElem hjlt
      rw [hje]
      simp only [hgetd, Option.toList_some, List.map_append, List.map_cons, List.map_nil,
        List.append_assoc, List.singleton_append]
    rw [hseteq]
    obtain ⟨f2, hrest⟩ := ih (j + 1) (by omega) f1 (acc + countOccs fooPat (ls.getD j []))
    refine ⟨f2, ?_⟩
    rw [hrest]
    have hsum : (ls.drop j).map (countOccs fooPat) =
        countOccs fooPat (ls.getD j []) :: (ls.drop (j + 1)).map (countOccs fooPat) := by
      rw [hdropcons, hgetd]
      simp only [List.map_cons]
    rw [hsum]
    simp only [List.sum_cons]
    congr 1
    omega

theorem executeSubstituteLine_noop (st : EdState) (i : Nat)
    (h0 : ∀ l, st.buffer.getLine i = some l → countOccs fooPat l = 0) :
    executeSubstituteLine st i fooPat barRep true = (st, 0) := by
  unfold executeSubstituteLine
  cases hgl : st.buffer.getLine i with
  | none => rfl
  | some l =>
    have hz := h0 l hgl
    simp [hz]

theorem substFold_noop (st : EdState)
    (h0 : ∀ (i : Nat) (l : Text), st.buffer.getLine i = some l → countOccs fooPat l = 0) :
    ∀ (lines : List Nat) (acc : Nat),
      lines.foldl (substituteFoldStep fooPat barRep true) (st, acc) = (st, acc) := by
  intro lines
  induction lines with
  | nil => intro acc; rfl
  | cons i rest ih =>
    intro acc
    rw [List.foldl_cons]
    have hstep : substituteFoldStep fooPat barRep true (st, acc) i = (st, acc) := by
      unfold substituteFoldStep
      rw [executeSubstituteLine_noop st i (h0 i)]
      rfl
    rw [hstep]
    exact ih acc

theorem executeCmdSubstitute_percent {ls : List Text} (hnf : ∀ l ∈ ls, '\n' ∉ l)
    (hne : ls ≠ []) (hbig : ∀ l ∈ ls, l.length < usizeMax)
    (hasc : ∀ l ∈ ls, ∀ c ∈ l, c.utf8Size = 1)
    (cl cc cnt : Nat) (msg : Option Text) (regs : RegisterManager) (mo : Bool) :
    ∃ f2 : Bool,
      executeCmdSubstitute ⟨⟨Buf.joinNl ls, mo⟩, cl, cc, cnt, msg, regs⟩ fooPat barRep
        true (some ⟨1, usizeMax⟩) =
      { buffer := ⟨Buf.joinNl (ls.map (replaceAll fooPat barRep)), f2⟩,
        cursorLine := cl, cursorCol := cc, count := cnt,
        message := some (if 0 < ((ls.map (countOccs fooPat)).sum) then
          substMsgText ((ls.map (countOccs fooPat)).sum) ls.length
          else "Pattern not found".toList),
        registers := regs } := by
  have hpos : 0 < ls.length := List.length_pos.mpr hne
  have hlen : Buf.lenLines (Buf.joinNl ls) = ls.length := Buf.lenLines_joinNl hnf hne
  obtain ⟨f2, hfold⟩ := substFold hnf hbig hasc cl cc cnt msg regs ls.length 0 (by omega)
    mo 0
  simp only [List.take_zero, List.map_nil, List.nil_append, List.drop_zero,
    Nat.zero_add] at hfold
  refine ⟨f2, ?_⟩
  unfold executeCmdSubstitute
  dsimp only
  rw [if_pos rfl]
  show (if 0 < _ then _ else _) = _
  have hlc : Buffer.lineCount ⟨Buf.joinNl ls, mo⟩ = ls.length := hlen
  rw [hlc]
  have hcnt : ls.length - 1 + 1 - (1 - 1) = ls.length := by omega
  rw [hcnt]
  have hstart : (1 : Nat) - 1 = 0 := rfl
  rw [hstart, hfold]
  have hrange : ls.length - 1 - 0 + 1 = ls.length := by omega
  rw [hrange]
  dsimp only
  by_cases ht : 0 < (List.map (countOccs fooPat) ls).sum
  · rw [if_pos ht, if_pos ht]
  · rw [if_neg ht, if_neg ht]

theorem executeCmdSubstitute_noop (st : EdState)
    (h0 : ∀ (i : Nat) (l : Text), st.buffer.getLine i = some l → countOccs fooPat l = 0) :
    executeCmdSubstitute st fooPat barRep true (some ⟨1, usizeMax⟩) =
      { st with message := some "Pattern not found".toList } := by
  unfold executeCmdSubstitute
  dsimp only
  rw [if_pos rfl]
  rw [substFold_noop st h0 _ 0]
  rfl

/-- C5. Counterexample to the claim's "on any buffer": on the buffer
`"你foo\nx"`, whose first line holds the three-byte character `'你'`,
`:%s/foo/bar/g` does *not* perform a per-line replacement.
`execute_substitute_line` deletes the matched line's content with
`delete_range(line, 0, line, line_len(line))`, but `line_len` returns
the UTF-8 byte length (6 here) while `delete_range` counts rope
characters, so the deletion swallows the line's newline and the whole
second line; the rewritten buffer is the single line `"你bar"` — the
line `"x"` is destroyed — instead of the per-line result
`"你bar\nx"`. -/
theorem substitute_multibyte_counterexample :
    (executeCmdSubstitute ⟨⟨"你foo\nx".toList, false⟩, 0, 0, 0, none,
        RegisterManager.new⟩ fooPat barRep true (some ⟨1, usizeMax⟩)).buffer.text =
      "你bar".toList ∧
    (executeCmdSubstitute ⟨⟨"你foo\nx".toList, false⟩, 0, 0, 0, none,
        RegisterManager.new⟩ fooPat barRep true (some ⟨1, usizeMax⟩)).buffer.text ≠
      Buf.joinNl ((Buf.splitNl "你foo\nx".toList).map (replaceAll fooPat barRep)) ∧
    (executeCmdSubstitute ⟨⟨"你foo\nx".toList, false⟩, 0, 0, 0, none,
        RegisterManager.new⟩ fooPat barRep true (some ⟨1, usizeMax⟩)).buffer.lineCount
      = 1 := by
  refine ⟨?_, ?_, ?_⟩ <;> decide

/-- C5 (amended). Executing `:%s/foo/bar/g` on any buffer whose
characters are all single-byte (so `line_len`'s byte counts coincide
with ropey's character indices; see the counterexample for a multi-byte
buffer) replaces every occurrence of the literal `"foo"` by `"bar"` on
every line (the resulting rope joins the `foo→bar` replacement of each
original line); the status message is `"N substitution(s) on M
line(s)"` built from the total substitution count when that count is
positive and `"Pattern not found"` otherwise; and running the same
command again changes nothing except setting the message to
`"Pattern not found"`, because no `"foo"` survives the first pass. -/
theorem substitute_foo_bar_percent (t : Text) (cl cc cnt : Nat) (msg : Option Text)
    (regs : RegisterManager) (mo : Bool)
    (hbig : ∀ l ∈ Buf.splitNl t, l.length < usizeMax)
    (hasc : ∀ c ∈ t, c.utf8Size = 1) :
    (executeCmdSubstitute ⟨⟨t, mo⟩, cl, cc, cnt, msg, regs⟩ fooPat barRep true
        (some ⟨1, usizeMax⟩)).buffer.text =
      Buf.joinNl ((Buf.splitNl t).map (replaceAll fooPat barRep)) ∧
    (executeCmdSubstitute ⟨⟨t, mo⟩, cl, cc, cnt, msg, regs⟩ fooPat barRep true
        (some ⟨1, usizeMax⟩)).message =
      some (if 0 < ((Buf.splitNl t).map (countOccs fooPat)).sum then
        substMsgText (((Buf.splitNl t).map (countOccs fooPat)).sum) (Buf.lenLines t)
        else "Pattern not found".toList) ∧
    executeCmdSubstitute (executeCmdSubstitute ⟨⟨t, mo⟩, cl, cc, cnt, msg, regs⟩ fooPat
        barRep true (some ⟨1, usizeMax⟩)) fooPat barRep true (some ⟨1, usizeMax⟩) =
      { executeCmdSubstitute ⟨⟨t, mo⟩, cl, cc, cnt, msg, regs⟩ fooPat barRep true
          (some ⟨1, usizeMax⟩) with message := some "Pattern not found".toList } := by
  set ls := Buf.splitNl t with hls
  have hnf : ∀ l ∈ ls, '\n' ∉ l := by rw [hls]; exact Buf.nlFree_splitNl t
  have hne : ls ≠ [] := by rw [hls]; exact Buf.splitNl_ne_nil t
  have hjoin : Buf.joinNl ls = t := by rw [hls]; exact Buf.joinNl_splitNl t
  have hascl : ∀ l ∈ ls, ∀ c ∈ l, c.utf8Size = 1 := fun l hl c hc =>
    hasc c (hjoin ▸ Buf.mem_joinNl ls l hl c hc)
  rw [← hjoin]
  obtain ⟨f2, h1⟩ := executeCmdSubstitute_percent hnf hne hbig hascl cl cc cnt msg regs mo
  rw [h1]
  have hnfm : ∀ l ∈ ls.map (replaceAll fooPat barRep), '\n' ∉ l := by
    intro l hl
    obtain ⟨y, hy, hyl⟩ := List.mem_map.mp hl
    exact hyl ▸ nlFree_replaceAll_foo (hnf y hy)
  have hnem : ls.map (replaceAll fooPat barRep) ≠ [] := by
    intro hcon
    exact hne (List.map_eq_nil.mp hcon)
  refine ⟨rfl, ?_, ?_⟩
  · rw [Buf.lenLines_joinNl hnf hne]
  · apply executeCmdSubstitute_noop
    intro i l hgl
    by_cases hi : i < (ls.map (replaceAll fooPat barRep)).length
    · rw [Buffer.getLine_joinNl hnfm hi f2] at hgl
      injection hgl with hgl
      have hmem : (ls.map (replaceAll fooPat barRep)).getD i [] ∈
          ls.map (replaceAll fooPat barRep) := by
        rw [List.getD_eq_getElem _ _ hi]
        exact List.getElem_mem hi
      obtain ⟨y, _, hyl⟩ := List.mem_map.mp hmem
      rw [← hgl, ← hyl]
      exact countOccs_foo_replaceAll y
    · have hlenm : Buf.lenLines (Buf.joinNl (ls.map (replaceAll fooPat barRep))) =
          (ls.map (replaceAll fooPat barRep)).length := Buf.lenLines_joinNl hnfm hnem
      unfold Buffer.getLine at hgl
      rw [if_neg (by rw [hlenm]; exact hi)] at hgl
      exact absurd hgl (by simp)

/-- Witness for the amended C5 on the concrete single-byte buffer
`"xfoo\nfoofoo"`: three substitutions happen, the message reports them,
and a second run changes only the message. -/
theorem substitute_foo_bar_percent_witness :
    (executeCmdSubstitute ⟨⟨"xfoo\nfoofoo".toList, false⟩, 0, 0, 0, none,
        RegisterManager.new⟩ fooPat barRep true (some ⟨1, usizeMax⟩)).buffer.text =
      "xbar\nbarbar".toList ∧
    (executeCmdSubstitute ⟨⟨"xfoo\nfoofoo".toList, false⟩, 0, 0, 0, none,
        RegisterManager.new⟩ fooPat barRep true (some ⟨1, usizeMax⟩)).message =
      some "3 substitutions on 2 lines".toList := by
  have h := substitute_foo_bar_percent "xfoo\nfoofoo".toList 0 0 0 none
    RegisterManager.new false (by decide) (by decide)
  constructor
  · rw [h.1]; decide
  · rw [h.2.1]; decide

/-- C3. Divergence witness: executing the `Command::Delete` arm with
range 1–3 on the 5-line buffer `"a\nb\nc\nd\ne"` does *not* remove the
three lines.  `delete_range(line, 0, line, line_len)` empties each
line's content, after which `delete_char(line, 0)` — intended by the
code's own comment to "delete the newline" — is a guaranteed no-op,
because `delete_char` requires `col < line_len(line)` and the line is
now empty.  The buffer is left with five lines, the first three empty,
while the code still reports `"3 lines deleted"`; the spec (and the
code's comment and message) intend a 2-line buffer `"d\ne"`. -/
theorem executeCmdDelete_1_3_divergence :
    (executeCmdDelete ⟨⟨"a\nb\nc\nd\ne".toList, false⟩, 0, 0, 0, none,
        RegisterManager.new⟩ (some ⟨1, 3⟩)).buffer.text = "\n\n\nd\ne".toList ∧
    (executeCmdDelete ⟨⟨"a\nb\nc\nd\ne".toList, false⟩, 0, 0, 0, none,
        RegisterManager.new⟩ (some ⟨1, 3⟩)).buffer.lineCount = 5 ∧
    (executeCmdDelete ⟨⟨"a\nb\nc\nd\ne".toList, false⟩, 0, 0, 0, none,
        RegisterManager.new⟩ (some ⟨1, 3⟩)).buffer.text ≠ "d\ne".toList ∧
    (executeCmdDelete ⟨⟨"a\nb\nc\nd\ne".toList, false⟩, 0, 0, 0, none,
        RegisterManager.new⟩ (some ⟨1, 3⟩)).message = some "3 lines deleted".toList := by
  refine ⟨?_, ?_, ?_, ?_⟩ <;> decide

theorem setDelete_none (m : RegisterManager) (c : RegisterContent) :
    m.setDelete none c = { m with unnamed := c, lastDelete := c } := by
  unfold RegisterManager.setDelete RegisterManager.set
  rw [if_neg (by simp), if_neg (by simp)]

theorem clampCursor_buffer (st : EdState) : (clampCursor st).buffer = st.buffer := rfl

theorem clampCursor_registers (st : EdState) :
    (clampCursor st).registers = st.registers := rfl

theorem ddDeleteLoop_succ_erase {ls : List Text} (hnf : ∀ l ∈ ls, '\n' ∉ l) {L : Nat}
    (h : L + 1 < ls.length) (k cc cnt : Nat) (msg : Option Text)
    (regs : RegisterManager) (mo : Bool) :
    ddDeleteLoop (k + 1) ⟨⟨Buf.joinNl ls, mo⟩, L, cc, cnt, msg, regs⟩ =
      ddDeleteLoop k ⟨⟨Buf.joinNl (ls.eraseIdx L), true⟩, L, cc, cnt, msg, regs⟩ := by
  have hne : ls ≠ [] := by intro hcon; subst hcon; simp at h
  have hlc : Buffer.lineCount ⟨Buf.joinNl ls, mo⟩ = ls.length :=
    Buf.lenLines_joinNl hnf hne
  show (if _ < _ - 1 then _ else _) = _
  rw [hlc, if_pos (by omega : L < ls.length - 1)]
  rw [Buffer.deleteRange_eraseLine hnf h mo]

theorem ddDeleteLoop_succ_last {ls : List Text} (hnf : ∀ l ∈ ls, '\n' ∉ l) {L : Nat}
    (h : L + 1 = ls.length) (hL : 0 < L)
    (hbig : (ls.getD L []).length ≠ usizeMax)
    (hascp : ∀ c ∈ ls.getD (L - 1) [], c.utf8Size = 1)
    (hascl : ∀ c ∈ ls.getD L [], c.utf8Size = 1) (k cc cnt : Nat) (msg : Option Text)
    (regs : RegisterManager) (mo : Bool) :
    ddDeleteLoop (k + 1) ⟨⟨Buf.joinNl ls, mo⟩, L, cc, cnt, msg, regs⟩ =
      ⟨⟨Buf.joinNl (ls.take L), true⟩, L - 1, cc, cnt, msg, regs⟩ := by
  have hne : ls ≠ [] := by intro hcon; subst hcon; simp at h
  have hlc : Buffer.lineCount ⟨Buf.joinNl ls, mo⟩ = ls.length :=
    Buf.lenLines_joinNl hnf hne
  have hlt : L < ls.length := by omega
  have hprev : L - 1 < ls.length := by omega
  show (if _ < _ - 1 then _ else _) = _
  rw [hlc, if_neg (by omega : ¬ L < ls.length - 1), if_pos hL]
  rw [Buffer.lineLen_joinNl hnf hprev mo, Buffer.lineLen_joinNl hnf hlt mo,
    Buf.utf8Len_eq_length hascp, Buf.utf8Len_eq_length hascl]
  dsimp only
  rw [Buffer.deleteRange_lastLine hnf h hL hbig mo]

/-- C2. Counterexample to the claim as stated: on the 5-line buffer
`"a\nb\nc\nd\ne"` with the cursor on line 3 (0-indexed) and count 3,
`3dd` removes only 2 lines (the buffer ends with 3 lines, not 2) and
stores only those 2 lines — not 3 — into the unnamed register. -/
theorem dd_count3_line3_counterexample :
    (ddDeleteLines ⟨⟨"a\nb\nc\nd\ne".toList, false⟩, 3, 0, 3, none,
        RegisterManager.new⟩).buffer.lineCount ≠ 5 - 3 ∧
    (ddDeleteLines ⟨⟨"a\nb\nc\nd\ne".toList, false⟩, 3, 0, 3, none,
        RegisterManager.new⟩).registers.unnamed = .line ["d".toList, "e".toList] ∧
    (ddDeleteLines ⟨⟨"a\nb\nc\nd\ne".toList, false⟩, 3, 0, 3, none,
        RegisterManager.new⟩).buffer.text = "a\nb\nc".toList := by
  refine ⟨?_, ?_, ?_⟩ <;> decide

theorem ddDeleteLines_unfold (st : EdState) :
    ddDeleteLines st = clampCursor (ddDeleteLoop (if st.count = 0 then 1 else st.count)
      { st with registers := st.registers.setDelete none (.line (collectLines st.buffer
        st.cursorLine (min (st.cursorLine + (if st.count = 0 then 1 else st.count) - 1)
          (st.buffer.lineCount - 1)))) }) := rfl

/-- C2 (amended). On a 5-line buffer of single-byte lines (so
`line_len`'s byte counts coincide with ropey's character indices) with
the cursor on line `L` (0-indexed) and count 3, the doubled delete
operator `3dd` removes `min 3 (5 - L)` lines starting at line `L` —
exactly 3 only when `L ≤ 2` — and stores exactly those removed lines,
in their original order, into the unnamed register (and the last-delete
slot) as a line-wise `RegisterContent::Line` value. -/
theorem dd_count3_five_lines (l0 l1 l2 l3 l4 : Text)
    (hnf : ∀ l ∈ [l0, l1, l2, l3, l4], '\n' ∉ l)
    (hbig : ∀ l ∈ [l0, l1, l2, l3, l4], l.length < usizeMax)
    (hasc : ∀ l ∈ [l0, l1, l2, l3, l4], ∀ c ∈ l, c.utf8Size = 1)
    (L : Nat) (hL : L < 5) (cc : Nat) (msg : Option Text) (regs : RegisterManager)
    (mo : Bool) :
    (ddDeleteLines ⟨⟨Buf.joinNl [l0, l1, l2, l3, l4], mo⟩, L, cc, 3, msg,
        regs⟩).buffer.text =
      Buf.joinNl ([l0, l1, l2, l3, l4].take L ++
        [l0, l1, l2, l3, l4].drop (min (L + 3) 5)) ∧
    (ddDeleteLines ⟨⟨Buf.joinNl [l0, l1, l2, l3, l4], mo⟩, L, cc, 3, msg,
        regs⟩).registers.unnamed =
      .line (([l0, l1, l2, l3, l4].drop L).take (min 3 (5 - L))) ∧
    (ddDeleteLines ⟨⟨Buf.joinNl [l0, l1, l2, l3, l4], mo⟩, L, cc, 3, msg,
        regs⟩).registers.lastDelete =
      .line (([l0, l1, l2, l3, l4].drop L).take (min 3 (5 - L))) := by
  have hlc : Buffer.lineCount ⟨Buf.joinNl [l0, l1, l2, l3, l4], mo⟩ =
      [l0, l1, l2, l3, l4].length := Buf.lenLines_joinNl hnf (by simp)
  have hnf4a : ∀ l ∈ [l1, l2, l3, l4], '\n' ∉ l := by
    intro l hl; apply hnf l
    simp only [List.mem_cons, List.not_mem_nil, or_false] at hl ⊢; tauto
  have hnf4b : ∀ l ∈ [l0, l2, l3, l4], '\n' ∉ l := by
    intro l hl; apply hnf l
    simp only [List.mem_cons, List.not_mem_nil, or_false] at hl ⊢; tauto
  have hnf4c : ∀ l ∈ [l0, l1, l3, l4], '\n' ∉ l := by
    intro l hl; apply hnf l
    simp only [List.mem_cons, List.not_mem_nil, or_false] at hl ⊢; tauto
  have hnf4d : ∀ l ∈ [l0, l1, l2, l4], '\n' ∉ l := by
    intro l hl; apply hnf l
    simp only [List.mem_cons, List.not_mem_nil, or_false] at hl ⊢; tauto
  have hnf3a : ∀ l ∈ [l2, l3, l4], '\n' ∉ l := by
    intro l hl; apply hnf l
    simp only [List.mem_cons, List.not_mem_nil, or_false] at hl ⊢; tauto
  have hnf3b : ∀ l ∈ [l0, l3, l4], '\n' ∉ l := by
    intro l hl; apply hnf l
    simp only [List.mem_cons, List.not_mem_nil, or_false] at hl ⊢; tauto
  have hnf3c : ∀ l ∈ [l0, l1, l4], '\n' ∉ l := by
    intro l hl; apply hnf l
    simp only [List.mem_cons, List.not_mem_nil, or_false] at hl ⊢; tauto
  have hbig4 : l4.length ≠ usizeMax := Nat.ne_of_lt (hbig l4 (by simp))
  have hasc1 : ∀ c ∈ l1, c.utf8Size = 1 := hasc l1 (by simp)
  have hasc2 : ∀ c ∈ l2, c.utf8Size = 1 := hasc l2 (by simp)
  have hasc3 : ∀ c ∈ l3, c.utf8Size = 1 := hasc l3 (by simp)
  have hasc4 : ∀ c ∈ l4, c.utf8Size = 1 := hasc l4 (by simp)
  interval_cases L
  · have hcoll : collectLines ⟨Buf.joinNl [l0, l1, l2, l3, l4], mo⟩ 0 2 =
        [l0, l1, l2] := by
      unfold collectLines
      show ([0, 1, 2].filterMap fun i =>
        Buffer.getLine ⟨Buf.joinNl [l0, l1, l2, l3, l4], mo⟩ i) = _
      simp only [List.filterMap_cons, List.filterMap_nil,
        Buffer.getLine_joinNl hnf (show (0:Nat) < [l0, l1, l2, l3, l4].length by simp) mo,
        Buffer.getLine_joinNl hnf (show (1:Nat) < [l0, l1, l2, l3, l4].length by simp) mo,
        Buffer.getLine_joinNl hnf (show (2:Nat) < [l0, l1, l2, l3, l4].length by simp) mo]
      simp [List.getD]
    have hfinal : ddDeleteLines ⟨⟨Buf.joinNl [l0, l1, l2, l3, l4], mo⟩, 0, cc, 3, msg,
        regs⟩ = clampCursor ⟨⟨Buf.joinNl [l3, l4], true⟩, 0, cc, 3, msg,
          regs.setDelete none (.line [l0, l1, l2])⟩ := by
      rw [ddDeleteLines_unfold]
      dsimp only
      rw [hlc]
      norm_num
      rw [hcoll]
      rw [show (3:Nat) = 2 + 1 from rfl, ddDeleteLoop_succ_erase hnf (by simp) _ _ _ _ _ _]
      rw [show [l0, l1, l2, l3, l4].eraseIdx 0 = [l1, l2, l3, l4] from rfl]
      rw [show (2:Nat) = 1 + 1 from rfl,
        ddDeleteLoop_succ_erase hnf4a (by simp) _ _ _ _ _ _]
      rw [show [l1, l2, l3, l4].eraseIdx 0 = [l2, l3, l4] from rfl]
      rw [show (1:Nat) = 0 + 1 from rfl,
        ddDeleteLoop_succ_erase hnf3a (by simp) _ _ _ _ _ _]
      rw [show [l2, l3, l4].eraseIdx 0 = [l3, l4] from rfl]
      rfl
    refine ⟨?_, ?_, ?_⟩ <;> rw [hfinal]
    · rw [clampCursor_buffer]
      simp
    · rw [clampCursor_registers, setDelete_none]
      rfl
    · rw [clampCursor_registers, setDelete_none]
      rfl
  · have hcoll : collectLines ⟨Buf.joinNl [l0, l1, l2, l3, l4], mo⟩ 1 3 =
        [l1, l2, l3] := by
      unfold collectLines
      show ([1, 2, 3].filterMap fun i =>
        Buffer.getLine ⟨Buf.joinNl [l0, l1, l2, l3, l4], mo⟩ i) = _
      simp only [List.filterMap_cons, List.filterMap_nil,
        Buffer.getLine_joinNl hnf (show (1:Nat) < [l0, l1, l2, l3, l4].length by simp) mo,
        Buffer.getLine_joinNl hnf (show (2:Nat) < [l0, l1, l2, l3, l4].length by simp) mo,
        Buffer.getLine_joinNl hnf (show (3:Nat) < [l0, l1, l2, l3, l4].length by simp) mo]
      simp [List.getD]
    have hfinal : ddDeleteLines ⟨⟨Buf.joinNl [l0, l1, l2, l3, l4], mo⟩, 1, cc, 3, msg,
        regs⟩ = clampCursor ⟨⟨Buf.joinNl [l0, l4], true⟩, 1, cc, 3, msg,
          regs.setDelete none (.line [l1, l2, l3])⟩ := by
      rw [ddDeleteLines_unfold]
      dsimp only
      rw [hlc]
      norm_num
      rw [hcoll]
      rw [show (3:Nat) = 2 + 1 from rfl, ddDeleteLoop_succ_erase hnf (by simp) _ _ _ _ _ _]
      rw [show [l0, l1, l2, l3, l4].eraseIdx 1 = [l0, l2, l3, l4] from rfl]
      rw [show (2:Nat) = 1 + 1 from rfl,
        ddDeleteLoop_succ_erase hnf4b (by simp) _ _ _ _ _ _]
      rw [show [l0, l2, l3, l4].eraseIdx 1 = [l0, l3, l4] from rfl]
      rw [show (1:Nat) = 0 + 1 from rfl,
        ddDeleteLoop_succ_erase hnf3b (by simp) _ _ _ _ _ _]
      rw [show [l0, l3, l4].eraseIdx 1 = [l0, l4] from rfl]
      rfl
    refine ⟨?_, ?_, ?_⟩ <;> rw [hfinal]
    · rw [clampCursor_buffer]
      simp
    · rw [clampCursor_registers, setDelete_none]
      rfl
    · rw [clampCursor_registers, setDelete_none]
      rfl
  · have hcoll : collectLines ⟨Buf.joinNl [l0, l1, l2, l3, l4], mo⟩ 2 4 =
        [l2, l3, l4] := by
      unfold collectLines
      show ([2, 3, 4].filterMap fun i =>
        Buffer.getLine ⟨Buf.joinNl [l0, l1, l2, l3, l4], mo⟩ i) = _
      simp only [List.filterMap_cons, List.filterMap_nil,
        Buffer.getLine_joinNl hnf (show (2:Nat) < [l0, l1, l2, l3, l4].length by simp) mo,
        Buffer.getLine_joinNl hnf (show (3:Nat) < [l0, l1, l2, l3, l4].length by simp) mo,
        Buffer.getLine_joinNl hnf (show (4:Nat) < [l0, l1, l2, l3, l4].length by simp) mo]
      simp [List.getD]
    have hfinal : ddDeleteLines ⟨⟨Buf.joinNl [l0, l1, l2, l3, l4], mo⟩, 2, cc, 3, msg,
        regs⟩ = clampCursor ⟨⟨Buf.joinNl [l0, l1], true⟩, 1, cc, 3, msg,
          regs.setDelete none (.line [l2, l3, l4])⟩ := by
      rw [ddDeleteLines_unfold]
      dsimp only
      rw [hlc]
      norm_num
      rw [hcoll]
      rw [show (3:Nat) = 2 + 1 from rfl, ddDeleteLoop_succ_erase hnf (by simp) _ _ _ _ _ _]
      rw [show [l0, l1, l2, l3, l4].eraseIdx 2 = [l0, l1, l3, l4] from rfl]
      rw [show (2:Nat) = 1 + 1 from rfl,
        ddDeleteLoop_succ_erase hnf4c (by simp) _ _ _ _ _ _]
      rw [show [l0, l1, l3, l4].eraseIdx 2 = [l0, l1, l4] from rfl]
      rw [ddDeleteLoop_succ_last hnf3c (by simp) (by norm_num)
        (by show l4.length ≠ usizeMax; exact hbig4)
        (by show ∀ c ∈ l1, c.utf8Size = 1; exact hasc1)
        (by show ∀ c ∈ l4, c.utf8Size = 1; exact hasc4) _ _ _ _ _ _]
      rfl
    refine ⟨?_, ?_, ?_⟩ <;> rw [hfinal]
    · rw [clampCursor_buffer]
      simp
    · rw [clampCursor_registers, setDelete_none]
      rfl
    · rw [clampCursor_registers, setDelete_none]
      rfl
  · have hcoll : collectLines ⟨Buf.joinNl [l0, l1, l2, l3, l4], mo⟩ 3 4 =
        [l3, l4] := by
      unfold collectLines
      show ([3, 4].filterMap fun i =>
        Buffer.getLine ⟨Buf.joinNl [l0, l1, l2, l3, l4], mo⟩ i) = _
      simp only [List.filterMap_cons, List.filterMap_nil,
        Buffer.getLine_joinNl hnf (show (3:Nat) < [l0, l1, l2, l3, l4].length by simp) mo,
        Buffer.getLine_joinNl hnf (show (4:Nat) < [l0, l1, l2, l3, l4].length by simp) mo]
      simp [List.getD]
    have hfinal : ddDeleteLines ⟨⟨Buf.joinNl [l0, l1, l2, l3, l4], mo⟩, 3, cc, 3, msg,
        regs⟩ = clampCursor ⟨⟨Buf.joinNl [l0, l1, l2], true⟩, 2, cc, 3, msg,
          regs.setDelete none (.line [l3, l4])⟩ := by
      rw [ddDeleteLines_unfold]
      dsimp only
      rw [hlc]
      norm_num
      rw [hcoll]
      rw [show (3:Nat) = 2 + 1 from rfl, ddDeleteLoop_succ_erase hnf (by simp) _ _ _ _ _ _]
      rw [show [l0, l1, l2, l3, l4].eraseIdx 3 = [l0, l1, l2, l4] from rfl]
      rw [ddDeleteLoop_succ_last hnf4d (by simp) (by norm_num)
        (by show l4.length ≠ usizeMax; exact hbig4)
        (by show ∀ c ∈ l2, c.utf8Size = 1; exact hasc2)
        (by show ∀ c ∈ l4, c.utf8Size = 1; exact hasc4) _ _ _ _ _ _]
      rfl
    refine ⟨?_, ?_, ?_⟩ <;> rw [hfinal]
    · rw [clampCursor_buffer]
      simp
    · rw [clampCursor_registers, setDelete_none]
      rfl
    · rw [clampCursor_registers, setDelete_none]
      rfl
  · have hcoll : collectLines ⟨Buf.joinNl [l0, l1, l2, l3, l4], mo⟩ 4 4 =
        [l4] := by
      unfold collectLines
      show ([4].filterMap fun i =>
        Buffer.getLine ⟨Buf.joinNl [l0, l1, l2, l3, l4], mo⟩ i) = _
      simp only [List.filterMap_cons, List.filterMap_nil,
        Buffer.getLine_joinNl hnf (show (4:Nat) < [l0, l1, l2, l3, l4].length by simp) mo]
      simp [List.getD]
    have hfinal : ddDeleteLines ⟨⟨Buf.joinNl [l0, l1, l2, l3, l4], mo⟩, 4, cc, 3, msg,
        regs⟩ = clampCursor ⟨⟨Buf.joinNl [l0, l1, l2, l3], true⟩, 3, cc, 3, msg,
          regs.setDelete none (.line [l4])⟩ := by
      rw [ddDeleteLines_unfold]
      dsimp only
      rw [hlc]
      norm_num
      rw [hcoll]
      rw [show (3:Nat) = 2 + 1 from rfl, ddDeleteLoop_succ_last hnf (by simp) (by norm_num)
        (by show l4.length ≠ usizeMax; exact hbig4)
        (by show ∀ c ∈ l3, c.utf8Size = 1; exact hasc3)
        (by show ∀ c ∈ l4, c.utf8Size = 1; exact hasc4) _ _ _ _ _ _]
      rfl
    refine ⟨?_, ?_, ?_⟩ <;> rw [hfinal]
    · rw [clampCursor_buffer]
      simp
    · rw [clampCursor_registers, setDelete_none]
      rfl
    · rw [clampCursor_registers, setDelete_none]
      rfl

/-- Witness for the amended C2 on the buffer `"a\nb\nc\nd\ne"` with the
cursor on line 1: exactly lines b, c, d are removed and stored. -/
theorem dd_count3_five_lines_witness :
    (ddDeleteLines ⟨⟨"a\nb\nc\nd\ne".toList, false⟩, 1, 0, 3, none,
        RegisterManager.new⟩).buffer.text = "a\ne".toList ∧
    (ddDeleteLines ⟨⟨"a\nb\nc\nd\ne".toList, false⟩, 1, 0, 3, none,
        RegisterManager.new⟩).registers.unnamed =
      .line ["b".toList, "c".toList, "d".toList] := by
  have h := dd_count3_five_lines "a".toList "b".toList "c".toList "d".toList "e".toList
    (by decide) (by decide) (by decide) 1 (by decide) 0 none RegisterManager.new false
  exact ⟨h.1, h.2.1⟩

set_option maxRecDepth 4000 in
/-- C4. Counterexample to the claim as stated: recording 101 distinct
jump positions from a fresh editor leaves the jump list with 101
entries — `save_jump_position` never evicts, so the jump list is *not*
capped at 100. -/
theorem jump_list_exceeds_100 :
    (((List.range 101).map (fun i => (i, 0))).foldl saveJumpPosition
      ⟨[], 0⟩).jumpList.length = 101 := by
  decide

/-- C4 (amended). The change list never exceeds 100 entries under any
sequence of `record_change` calls — when an insertion would exceed 100
the oldest entry is evicted first — while the jump list has no cap (see
the counterexample).  Part one: the ≤ 100 bound is an invariant of
`record_change`; part two: a `record_change` at exactly 100 entries
drops the oldest entry and appends the new position. -/
theorem change_list_capped (ps : List (Nat × Nat)) (s0 : ChangeListState)
    (h0 : s0.changeList.length ≤ 100) :
    (ps.foldl recordChangePos s0).changeList.length ≤ 100 ∧
    (∀ (s : ChangeListState) (pos : Nat × Nat), s.changeList.length = 100 →
      (recordChangePos s pos).changeList = s.changeList.drop 1 ++ [pos]) := by
  constructor
  · induction ps generalizing s0 with
    | nil => exact h0
    | cons p rest ih =>
      rw [List.foldl_cons]
      apply ih
      unfold recordChangePos
      dsimp only
      by_cases hc : (s0.changeList ++ [p]).length > 100
      · rw [if_pos hc]
        simp only [List.length_drop, List.length_append, List.length_cons,
          List.length_nil]
        omega
      · rw [if_neg hc]
        simp only [List.length_append, List.length_cons, List.length_nil] at hc ⊢
        omega
  · intro s pos hs
    unfold recordChangePos
    dsimp only
    rw [if_pos (by simp [hs])]
    rcases hcl : s.changeList with _ | ⟨a, as⟩
    · rw [hcl] at hs; simp at hs
    · simp [hcl]

/-- Witness for the amended C4: pushing 150 positions onto an empty
change list leaves exactly 100 entries, and a push at 100 entries drops
the head. -/
theorem change_list_capped_witness :
    ((((List.range 150).map (fun i => (i, 0))).foldl recordChangePos
      ⟨[], 0⟩).changeList.length ≤ 100) ∧
    (recordChangePos ⟨(List.range 100).map (fun i => (i, 0)), 99⟩ (7, 7)).changeList =
      ((List.range 100).map (fun i => (i, 0))).drop 1 ++ [(7, 7)] := by
  have h := change_list_capped ((List.range 150).map (fun i => (i, 0))) ⟨[], 0⟩
    (by decide)
  refine ⟨h.1, ?_⟩
  exact h.2 ⟨(List.range 100).map (fun i => (i, 0)), 99⟩ (7, 7) (by decide)

/-- C7. For every selection — any anchor, cursor and shape —
`Selection::range` returns a pair ordered by (line, column); swapping
anchor and cursor yields the same normalized pair; and for the
line-wise shape the range spans full lines: the start column is 0 and
the end column is the `usize::MAX` sentinel. -/
theorem selection_range_normalized (s : Selection) :
    posLe (s.range).1 (s.range).2 ∧
    (Selection.range ⟨s.cursor, s.anchor, s.mode⟩ = s.range) ∧
    (s.mode = .visualLine →
      (s.range).1.col = 0 ∧ (s.range).2.col = usizeMax) := by
  obtain ⟨⟨al, ac⟩, ⟨cl, cc⟩, m⟩ := s
  unfold Selection.range posLe
  dsimp only
  by_cases h1 : al < cl ∨ (al = cl ∧ ac ≤ cc)
  · rw [if_pos h1]
    by_cases h2 : cl < al ∨ (cl = al ∧ cc ≤ ac)
    · rw [if_pos h2]
      have heq : al = cl ∧ ac = cc := by omega
      obtain ⟨rfl, rfl⟩ := heq
      cases m <;> simp [posLe] <;> omega
    · rw [if_neg h2]
      cases m <;> simp [posLe] <;> omega
  · rw [if_neg h1]
    have h2 : cl < al ∨ (cl = al ∧ cc ≤ ac) := by omega
    rw [if_pos h2]
    cases m <;> simp [posLe] <;> omega

/-- Witness for C7 at a concrete backward line-wise selection. -/
theorem selection_range_normalized_witness :
    posLe (Selection.range ⟨⟨5, 2⟩, ⟨1, 7⟩, .visualLine⟩).1
      (Selection.range ⟨⟨5, 2⟩, ⟨1, 7⟩, .visualLine⟩).2 ∧
    Selection.range ⟨⟨1, 7⟩, ⟨5, 2⟩, .visualLine⟩ =
      Selection.range ⟨⟨5, 2⟩, ⟨1, 7⟩, .visualLine⟩ ∧
    (Selection.range ⟨⟨5, 2⟩, ⟨1, 7⟩, .visualLine⟩).1.col = 0 ∧
    (Selection.range ⟨⟨5, 2⟩, ⟨1, 7⟩, .visualLine⟩).2.col = usizeMax := by
  have h := selection_range_normalized ⟨⟨5, 2⟩, ⟨1, 7⟩, .visualLine⟩
  exact ⟨h.1, h.2.1, (h.2.2 rfl).1, (h.2.2 rfl).2⟩

/-- C10. `Config::set("tabstop", v)`: a value that parses as a usize
`n` yields `Ok` and sets `tab_width` to `n` clamped into `[1, 16]` (out
of range values are clamped, never rejected), so `tab_width` lies in
`[1, 16]` after every successful tabstop set; a non-parsing or missing
value yields `Err` and leaves `tab_width` (indeed the whole config)
unchanged. -/
theorem config_set_tabstop (c : Config) (v : Text) :
    (∀ n, parseUsize v = some n →
      Config.set c "tabstop".toList (some v) =
        ({ c with tabWidth := min (max n 1) 16 }, .ok ()) ∧
      1 ≤ (Config.set c "tabstop".toList (some v)).1.tabWidth ∧
      (Config.set c "tabstop".toList (some v)).1.tabWidth ≤ 16) ∧
    (parseUsize v = none →
      (Config.set c "tabstop".toList (some v)).1 = c ∧
      (Config.set c "tabstop".toList (some v)).2 =
        .error ("Invalid value for tabstop: ".toList ++ v)) ∧
    (Config.set c "tabstop".toList none).1 = c ∧
    (Config.set c "tabstop".toList none).2 = .error "tabstop requires a value".toList := by
  have hr : ∀ (value : Option Text), Config.set c "tabstop".toList value =
      (match value with
        | some val =>
          match parseUsize val with
          | some width => ({ c with tabWidth := min (max width 1) 16 },
              (.ok () : Except Text Unit))
          | none => (c, .error ("Invalid value for tabstop: ".toList ++ val))
        | none => (c, .error "tabstop requires a value".toList)) := by
    intro value
    unfold Config.set
    rw [if_neg (by decide), if_neg (by decide), if_neg (by decide), if_neg (by decide),
      if_neg (by decide), if_neg (by decide), if_neg (by decide), if_neg (by decide),
      if_neg (by decide), if_neg (by decide), if_neg (by decide), if_neg (by decide),
      if_neg (by decide), if_neg (by decide), if_pos (by decide)]
  refine ⟨?_, ?_, ?_, ?_⟩
  · intro n hn
    have heq : Config.set c "tabstop".toList (some v) =
        ({ c with tabWidth := min (max n 1) 16 }, .ok ()) := by
      rw [hr (some v)]
      dsimp only
      rw [hn]
    refine ⟨heq, ?_, ?_⟩ <;> rw [heq] <;> simp <;> omega
  · intro hn
    have heq : Config.set c "tabstop".toList (some v) =
        (c, .error ("Invalid value for tabstop: ".toList ++ v)) := by
      rw [hr (some v)]
      dsimp only
      rw [hn]
    rw [heq]
    exact ⟨rfl, rfl⟩
  · rw [hr none]
  · rw [hr none]

/-- Witness for C10: `"99"` clamps to 16, `"0"` clamps to 1, `"abc"`
errors and leaves the default width 4. -/
theorem config_set_tabstop_witness :
    (Config.set Config.new "tabstop".toList (some "99".toList)).1.tabWidth = 16 ∧
    (Config.set Config.new "tabstop".toList (some "0".toList)).1.tabWidth = 1 ∧
    (Config.set Config.new "tabstop".toList (some "abc".toList)).1.tabWidth = 4 ∧
    (Config.set Config.new "tabstop".toList none).1.tabWidth = 4 := by
  have h99 := (config_set_tabstop Config.new "99".toList).1 99 (by decide)
  have h0 := (config_set_tabstop Config.new "0".toList).1 0 (by decide)
  have habc := (config_set_tabstop Config.new "abc".toList).2.1 (by decide)
  have hnone := (config_set_tabstop Config.new "abc".toList).2.2.1
  refine ⟨?_, ?_, ?_, ?_⟩
  · rw [h99.1]; decide
  · rw [h0.1]; decide
  · rw [habc.1]; decide
  · rw [hnone]; decide

theorem parseCommandRest_not_err (command : Text) (range : Option CmdRange) :
    exceptIsErr (parseCommandRest command range) = false := by
  unfold parseCommandRest parseSet
  split
  · rfl
  · by_cases c1 : "e ".toList.isPrefixOf command = true
    · rw [if_pos c1]; rfl
    rw [if_neg c1]
    by_cases c2 : "edit ".toList.isPrefixOf command = true
    · rw [if_pos c2]; rfl
    rw [if_neg c2]
    by_cases c3 : "set ".toList.isPrefixOf command = true
    · rw [if_pos c3]
      split <;> rfl
    rw [if_neg c3]
    by_cases c4 : command = "set".toList
    · rw [if_pos c4]; rfl
    rw [if_neg c4]
    by_cases c5 : "help ".toList.isPrefixOf command = true
    · rw [if_pos c5]; rfl
    rw [if_neg c5]
    by_cases c6 : command = "help".toList ∨ command = "h".toList
    · rw [if_pos c6]; rfl
    rw [if_neg c6]
    by_cases c7 : command = "bn".toList ∨ command = "bnext".toList
    · rw [if_pos c7]; rfl
    rw [if_neg c7]
    by_cases c8 : command = "bp".toList ∨ command = "bprevious".toList
    · rw [if_pos c8]; rfl
    rw [if_neg c8]
    by_cases c9 : command = "ls".toList ∨ command = "buffers".toList
    · rw [if_pos c9]; rfl
    rw [if_neg c9]
    by_cases c10 : command = "bd".toList ∨ command = "bdelete".toList
    · rw [if_pos c10]; rfl
    rw [if_neg c10]
    by_cases c11 : "bd ".toList.isPrefixOf command = true
    · rw [if_pos c11]; split <;> rfl
    rw [if_neg c11]
    by_cases c12 : command = "sp".toList ∨ command = "split".toList
    · rw [if_pos c12]; rfl
    rw [if_neg c12]
    by_cases c13 : command = "vsp".toList ∨ command = "vsplit".toList
    · rw [if_pos c13]; rfl
    rw [if_neg c13]
    by_cases c14 : command = "close".toList ∨ command = "clo".toList
    · rw [if_pos c14]; rfl
    rw [if_neg c14]
    rfl

/-- C6. `parse_command` fails exactly on the empty (after trimming)
input and on a substitute command whose text after the `s/` prefix has
fewer than two `/`-separated fields; every other input — including
unrecognized command text, which becomes `Command::Unknown` — parses
without error. -/
theorem parse_command_error_iff (s : Text) :
    exceptIsErr (parseCommand s) = true ↔
      (trimText s = [] ∨
        ("s/".toList.isPrefixOf (parseRange (stripColon (trimText s))).2 = true ∧
          (splitOn '/' ((parseRange (stripColon (trimText s))).2.drop 2)).length < 2)) := by
  unfold parseCommand
  by_cases hempty : trimText s = []
  · rw [if_pos hempty]
    simp [hempty, exceptIsErr]
  · rw [if_neg hempty]
    dsimp only
    simp only [hempty, false_or]
    set cmd := (parseRange (stripColon (trimText s))).2 with hcmd
    by_cases h1 : cmd = "w".toList ∨ cmd = "write".toList
    · rw [if_pos h1]
      apply iff_of_false (by simp [exceptIsErr])
      rcases h1 with h | h <;> rw [h] <;> decide
    rw [if_neg h1]
    by_cases h2 : cmd = "q".toList ∨ cmd = "quit".toList
    · rw [if_pos h2]
      apply iff_of_false (by simp [exceptIsErr])
      rcases h2 with h | h <;> rw [h] <;> decide
    rw [if_neg h2]
    by_cases h3 : cmd = "wq".toList ∨ cmd = "x".toList
    · rw [if_pos h3]
      apply iff_of_false (by simp [exceptIsErr])
      rcases h3 with h | h <;> rw [h] <;> decide
    rw [if_neg h3]
    by_cases h4 : cmd = "q!".toList
    · rw [if_pos h4]
      apply iff_of_false (by simp [exceptIsErr])
      rw [h4]; decide
    rw [if_neg h4]
    by_cases h5 : cmd = "d".toList ∨ cmd = "delete".toList
    · rw [if_pos h5]
      apply iff_of_false (by simp [exceptIsErr])
      rcases h5 with h | h <;> rw [h] <;> decide
    rw [if_neg h5]
    by_cases hs : "s/".toList.isPrefixOf cmd = true
    · rw [if_pos hs]
      unfold parseSubstitute
      rw [if_pos hs]
      dsimp only
      by_cases hlen : (splitOn '/' (cmd.drop 2)).length < 2
      · rw [if_pos hlen]
        exact iff_of_true rfl ⟨hs, hlen⟩
      · rw [if_neg hlen]
        exact iff_of_false (by simp [exceptIsErr]) (fun h => hlen h.2)
    · rw [if_neg hs]
      rw [parseCommandRest_not_err]
      exact iff_of_false (by simp) (fun h => hs h.1)

/-- Witness for C6 (the theorem is a bi-implication over all inputs;
this instantiates it at concrete inputs on both sides): `":s/foo"` is a
parse error, `":nonsense"` is not. -/
theorem parse_command_error_iff_witness :
    exceptIsErr (parseCommand ":s/foo".toList) = true ∧
    ¬ exceptIsErr (parseCommand ":nonsense".toList) = true := by
  constructor
  · exact (parse_command_error_iff ":s/foo".toList).mpr (by decide)
  · intro hcon
    have := (parse_command_error_iff ":nonsense".toList).mp hcon
    revert this
    decide

